import Mathlib

/-!
Verification of the message codec of foxy-ircd (src/case.rs, src/message.rs,
src/message/parse.rs). Bytes are modelled as `Nat` (all input bytes are < 256,
but none of the codec's decisions need that bound), byte strings as `List Nat`,
`Result<T, &'static str>` as `Except String T`, and `Option` as `Option`.
A Rust panic (`unwrap`, `assert_eq!`, the 4GiB guard) is modelled as a
distinguished `panicked` outcome, so that "returns an error" and "aborts"
are distinguishable. `debug_assert!` lines are compiled out in release mode
and are modelled as no-ops; the `unreachable!()` arms in the source-token
scanners (hit only on a space, which callers have already split away) are
modelled as `none`.
-/

namespace Foxy

/-! ## case.rs -/

/-- Upcase a byte (ASCII case mapping): `if b >= b'a' && b <= b'z' { b & !0x20 } else { b }`. -/
def upcase (b : Nat) : Nat :=
  if 97 ≤ b ∧ b ≤ 122 then b &&& 223 else b

/-- Downcase a byte (ASCII case mapping): `if b >= b'A' && b <= b'Z' { b | 0x20 } else { b }`. -/
def downcase (b : Nat) : Nat :=
  if 65 ≤ b ∧ b ≤ 90 then b ||| 32 else b

/-! ## message/parse.rs -/

def is_nulcrlf (x : Nat) : Bool := x == 0 || x == 13 || x == 10

def is_nulcrlfspace (x : Nat) : Bool := x == 0 || x == 13 || x == 10 || x == 32

def is_nulcrlfspaceatbang (x : Nat) : Bool :=
  x == 0 || x == 13 || x == 10 || x == 32 || x == 64 || x == 33

def validate_param (param : List Nat) : Except String Unit :=
  if param.isEmpty then .error "Invalid empty param"
  else if param.any is_nulcrlfspace then .error "Invalid byte in param"
  else if param.headD 0 == 58 then .error "Invalid colon in param"
  else .ok ()

def validate_trailing_param (param : List Nat) : Except String Unit :=
  if param.any is_nulcrlf then .error "Invalid byte in param"
  else .ok ()

/-- Scan for the first space; fail on CR or NUL; return the length if neither occurs. -/
def find_idx_of_space_or_end : List Nat → Option Nat
  | [] => some 0
  | x :: rest =>
    if x == 13 || x == 0 then none
    else if x == 32 then some 0
    else (find_idx_of_space_or_end rest).map (· + 1)

/-- Skip a run of leading spaces; fail on CR or NUL. -/
def skip_leading_space : List Nat → Option (List Nat)
  | [] => some []
  | x :: rest =>
    if x == 13 || x == 0 then none
    else if x == 32 then skip_leading_space rest
    else some (x :: rest)

/-- `parse_tags` exactly as in the source. Note that the source passes the whole
`line` (not `&line[split..]`) to `skip_leading_space`, so the returned
"rest of line" is the entire input whenever the line starts with `@`. -/
def parse_tags (line : List Nat) : Option (Option (List Nat) × List Nat) :=
  if line.isEmpty || line.headD 0 ≠ 64 then some (none, line)
  else do
    let split ← find_idx_of_space_or_end line
    let rest ← skip_leading_space line
    some (some ((line.drop 1).take (split - 1)), rest)

/-- Scan for `@` or `!` (or implicit termination by end-of-token, reported as `' '`). -/
def parse_source_name_or_nick : List Nat → Option (List Nat × Nat × List Nat)
  | [] => some ([], 32, [])
  | x :: rest =>
    if x == 13 || x == 0 then none
    else if x == 64 || x == 33 then some ([], x, rest)
    else if x == 32 then none -- unreachable!() in the source; callers pre-split at spaces
    else match parse_source_name_or_nick rest with
      | none => none
      | some (pre, finale, post) => some (x :: pre, finale, post)

/-- Scan for `@`; a second `!` is invalid; end-of-token is reported as `' '`. -/
def parse_source_user : List Nat → Option (List Nat × Nat × List Nat)
  | [] => some ([], 32, [])
  | x :: rest =>
    if x == 13 || x == 0 || x == 33 then none
    else if x == 64 then some ([], x, rest)
    else if x == 32 then none -- unreachable!() in the source; callers pre-split at spaces
    else match parse_source_user rest with
      | none => none
      | some (pre, finale, post) => some (x :: pre, finale, post)

/-- The host must contain no further `!` or `@`; consumes the whole token. -/
def parse_source_host (line : List Nat) : Option (List Nat × List Nat) :=
  if line.any (fun x => x == 13 || x == 0 || x == 33 || x == 64) then none
  else if line.any (fun x => x == 32) then none -- unreachable!() in the source
  else some (line, [])

def parse_digit (digit : Nat) : Option Nat :=
  if 48 ≤ digit ∧ digit ≤ 57 then some (digit - 48) else none

/-! ## message.rs: ranges and the interning helpers -/

/-- `Range<u32>` of the source; `stop` stands for the Rust field `end`. -/
structure Range where
  start : Nat
  stop : Nat
deriving DecidableEq, Repr

/-- Copy some bytes into a buffer, and return the `Range` occupied. -/
def inter_bytes (buf : List Nat) (bytes : List Nat) : List Nat × Range :=
  (buf ++ bytes, ⟨buf.length, buf.length + bytes.length⟩)

/-- Extract a `Range<u32>` from a slice (`&buf[start..end]`). -/
def extract_bytes (buf : List Nat) (r : Range) : List Nat :=
  (buf.drop r.start).take (r.stop - r.start)

/-! ## message.rs: Source -/

inductive IntSource
  | Server (name : Range)
  | Client (nick : Range) (user : Option Range) (host : Range)
deriving DecidableEq, Repr

inductive Source
  | Server (name : List Nat)
  | Client (nick : List Nat) (user : Option (List Nat)) (host : List Nat)
deriving DecidableEq, Repr

/-- Borrow an `IntSource` for outside use. -/
def IntSource.extract (s : IntSource) (buf : List Nat) : Source :=
  match s with
  | .Server name => .Server (extract_bytes buf name)
  | .Client nick user host =>
    .Client (extract_bytes buf nick) (user.map (extract_bytes buf)) (extract_bytes buf host)

/-- Encoded length of a source, including leading colon and trailing space. -/
def Source.raw_len : Source → Nat
  | .Server name => name.length + 2
  | .Client nick none host => nick.length + host.length + 3
  | .Client nick (some user) host => nick.length + user.length + host.length + 4

/-- Encode this `Source` into a message buffer, returning its `IntSource`. -/
def Source.inter (s : Source) (buf : List Nat) : List Nat × IntSource :=
  let buf := buf ++ [58]
  match s with
  | .Server name =>
    let (buf, nameR) := inter_bytes buf name
    (buf ++ [32], .Server nameR)
  | .Client nick user host =>
    let (buf, nickR) := inter_bytes buf nick
    let (buf, userR) := match user with
      | none => (buf, none)
      | some u =>
        let (buf, r) := inter_bytes (buf ++ [33]) u
        (buf, some r)
    let buf := buf ++ [64]
    let (buf, hostR) := inter_bytes buf host
    (buf ++ [32], .Client nickR userR hostR)

/-- Validate a source: only checks for stray NUL, CR, LF, space, `@`, and `!`. -/
def Source.validate : Source → Except String Unit
  | .Server name =>
    if name.any is_nulcrlfspaceatbang then .error "invalid character in server prefix"
    else .ok ()
  | .Client nick user host =>
    if nick.any is_nulcrlfspaceatbang then .error "invalid character in client nickname"
    else if (user.getD []).any is_nulcrlfspaceatbang then
      .error "invalid character in client username"
    else if host.any is_nulcrlfspaceatbang then .error "invalid character in client hostname"
    else .ok ()

/-- Parse part of a raw message into a `Source`, or determine that it lacks one. -/
def Source.parse (line : List Nat) : Option (Option Source × List Nat) :=
  if line.isEmpty || line.headD 0 ≠ 58 then some (none, line)
  else do
    let split ← find_idx_of_space_or_end line
    let rest ← skip_leading_space (line.drop split)
    let (first, finale, line2) ← parse_source_name_or_nick ((line.take split).drop 1)
    if finale == 32 then
      some (some (.Server first), rest)
    else do
      let (second, finale2, line3) ←
        if finale == 33 then
          match parse_source_user line2 with
          | none => none
          | some (second, f, l) => some ((some second : Option (List Nat)), f, l)
        else some ((none : Option (List Nat)), finale, line2)
      if finale2 ≠ 64 then none
      else do
        let (host, _) ← parse_source_host line3
        some (some (.Client first second host), rest)

/-! ## message.rs: Command -/

inductive IntCommand
  | Numeric (n : Nat) (r : Range)
  | Textual (r : Range)
deriving DecidableEq, Repr

inductive Command
  | Numeric (n : Nat)
  | Textual (b : List Nat)
deriving DecidableEq, Repr

/-- Borrow an `IntCommand` for outside use. -/
def IntCommand.extract (c : IntCommand) (buf : List Nat) : Command :=
  match c with
  | .Numeric x _ => .Numeric x
  | .Textual x => .Textual (extract_bytes buf x)

/-- Decimal digits with explicit fuel (structural recursion, so that the
kernel can evaluate it). -/
def decDigitsFuel : Nat → Nat → List Nat
  | 0, n => [n % 10]
  | fuel + 1, n => if n < 10 then [n] else decDigitsFuel fuel (n / 10) ++ [n % 10]

/-- Decimal digits of `n`, most significant first (`[0]` for zero);
`n` itself is always enough fuel. -/
def decDigits (n : Nat) : List Nat := decDigitsFuel n n

/-- Rust's `format!("{:03}", n)`: decimal, zero-padded on the left to width 3. -/
def fmt03 (n : Nat) : List Nat :=
  (List.replicate (3 - (decDigits n).length) 0 ++ decDigits n).map (48 + ·)

/-- Encode this `Command` into a byte buffer; folds case and checks validity. -/
def Command.bufferize : Command → Except String (List Nat)
  | .Numeric x =>
    if x == 0 || x > 999 then .error "Invalid command number"
    else .ok (fmt03 x)
  | .Textual x =>
    if x.any is_nulcrlfspace then .error "invalid character in command name"
    else .ok (x.map upcase)

/-- Intern an already-bufferized command into the message buffer. -/
def Command.inter (c : Command) (me_buf : List Nat) (out_buf : List Nat) :
    List Nat × IntCommand :=
  let (buf, range) := inter_bytes out_buf me_buf
  match c with
  | .Numeric x => (buf, .Numeric x range)
  | .Textual _ => (buf, .Textual range)

/-- Parse part of a raw message into a `Command`. -/
def Command.parse (line : List Nat) : Option (Command × List Nat) :=
  if line.isEmpty then none
  else do
    let split ← find_idx_of_space_or_end line
    let rest ← skip_leading_space (line.drop split)
    let tok := line.take split
    match tok with
    | [a, b, c] =>
      match parse_digit a, parse_digit b, parse_digit c with
      | some x, some y, some z => some (.Numeric (x * 100 + y * 10 + z), rest)
      | _, _, _ => some (.Textual tok, rest)
    | _ => some (.Textual tok, rest)

/-! ## message.rs: Message -/

structure Message where
  buf : List Nat
  source : Option IntSource
  command : IntCommand
  param_data_range : Range
  raw_message_len : Nat
  trailer : Bool
deriving DecidableEq, Repr

/-- `u32::to_ne_bytes` (little-endian on the build target). -/
def to_ne_bytes (n : Nat) : List Nat :=
  [n % 256, n / 256 % 256, n / 65536 % 256, n / 16777216 % 256]

/-- `u32::from_ne_bytes` on a 4-byte slice. -/
def from_ne_bytes : List Nat → Nat
  | [a, b, c, d] => a + b * 256 + c * 65536 + d * 16777216
  | _ => 0

/-- The offset-table region: the loop appending `start`/`end` of each
parameter range as native-endian `u32` bytes. -/
def tableBytes (rs : List Range) : List Nat :=
  (rs.map (fun r => to_ne_bytes r.start ++ to_ne_bytes r.stop)).flatten

/-- Outcome of `Message::assemble`, distinguishing the panicking paths. -/
inductive AssembleResult
  | ok (m : Message)
  | err (e : String)
  | panicked (e : String)
deriving DecidableEq, Repr

/-- The parameter loop of `Message::assemble`: for each param, push a space
(and a colon before the last one when `trailer` is set), validate, intern. -/
def interParams (buf : List Nat) : List (List Nat) → Bool →
    Except String (List Nat × List Range)
  | [], _ => .ok (buf, [])
  | [param], trailer =>
    let buf := buf ++ [32]
    if trailer then
      let buf := buf ++ [58]
      match validate_trailing_param param with
      | .error e => .error e
      | .ok () =>
        let (buf, r) := inter_bytes buf param
        .ok (buf, [r])
    else
      match validate_param param with
      | .error e => .error e
      | .ok () =>
        let (buf, r) := inter_bytes buf param
        .ok (buf, [r])
  | param :: rest, trailer =>
    let buf := buf ++ [32]
    match validate_param param with
    | .error e => .error e
    | .ok () =>
      let (buf, r) := inter_bytes buf param
      match interParams buf rest trailer with
      | .error e => .error e
      | .ok (buf2, rs) => .ok (buf2, r :: rs)

/-- The `if let Some(source) = source { source.validate()?; }` step. -/
def validateSourceOpt : Option Source → Except String Unit
  | some s => s.validate
  | none => Except.ok ()

/-- The `source.map(|x| x.inter(&mut buf))` step, starting from the empty buffer. -/
def interSourceOpt : Option Source → List Nat × Option IntSource
  | none => ([], none)
  | some s =>
    let (buf, i) := s.inter []
    (buf, some i)

/-- `Message::assemble`. The `debug_assert!(!(trailer && params.is_empty()))`
is compiled out in release mode; the two `assert_eq!` checks and the
over-4GiB guard are modelled as `panicked`. -/
def Message.assemble (source : Option Source) (command : Command)
    (params : List (List Nat)) (trailer : Bool) : AssembleResult :=
  match validateSourceOpt source with
  | .error e => .err e
  | .ok () =>
  match command.bufferize with
  | .error e => .err e
  | .ok command_buf =>
  let message_len := (source.map Source.raw_len).getD 0 + command_buf.length
      + (params.map (fun x => x.length + 1)).sum + (if trailer then 3 else 2)
  -- (message_len + 7) & !7
  let param_base := (message_len + 7) / 8 * 8
  let buf_len := param_base + params.length * 8
  if buf_len > 4294967295 then .panicked "Message over 4GiB long! Absurd!" else
  let (buf, interred_source) := interSourceOpt source
  let (buf, interred_command) := command.inter command_buf buf
  match interParams buf params trailer with
  | .error e => .err e
  | .ok (buf, interred_params) =>
  let buf := buf ++ [13, 10]
  if buf.length ≠ message_len then .panicked "assertion failed: buf.len() == message_len" else
  let buf := buf ++ List.replicate (param_base - buf.length) 0
  let buf := buf ++ tableBytes interred_params
  if buf.length ≠ buf_len then .panicked "assertion failed: buf.len() == buf_len" else
  .ok { buf := buf, source := interred_source, command := interred_command,
        param_data_range := ⟨param_base, buf_len⟩,
        raw_message_len := message_len, trailer := trailer }

/-- The exact bytes to send over the wire, including the trailing CR LF. -/
def Message.get_raw (m : Message) : List Nat :=
  m.buf.take m.raw_message_len

/-- The source (AKA prefix) specification of the message, if any. -/
def Message.get_source (m : Message) : Option Source :=
  m.source.map (fun x => x.extract m.buf)

/-- The command for this message. -/
def Message.get_command (m : Message) : Command :=
  m.command.extract m.buf

/-- The number of additional parameters in this message. -/
def Message.get_param_count (m : Message) : Nat :=
  (m.param_data_range.stop - m.param_data_range.start) / 8

/-- The nth parameter, or `none` past the end. -/
def Message.get_nth_param (m : Message) (n : Nat) : Option (List Nat) :=
  let param_list := extract_bytes m.buf m.param_data_range
  if n ≥ param_list.length / 8 then none
  else
    let raw_range_start := (param_list.drop (n * 8)).take 4
    let raw_range_stop := (param_list.drop (n * 8 + 4)).take 4
    some (extract_bytes m.buf ⟨from_ne_bytes raw_range_start, from_ne_bytes raw_range_stop⟩)

/-- Whether the last parameter follows a colon. -/
def Message.has_trailer (m : Message) : Bool :=
  m.trailer

/-- Outcome of `Message::parse`: the `panicked` case is the `.unwrap()` of the
inner `Message::assemble` hitting an `Err` (or the inner assembly panicking). -/
inductive ParseResult
  | ok (m : Message)
  | fail
  | panicked (e : String)
deriving DecidableEq, Repr

/-- The parameter-collecting `while` loop of `Message::parse`, with explicit
fuel so that the kernel can evaluate it. Each iteration strictly shortens the
line, so `line.length` is always enough fuel and the `fuel = 0` fallback is
unreachable from `parseParams`. -/
def parseParamsGo : Nat → List Nat → Option (List (List Nat) × Bool)
  | _, [] => some ([], false)
  | fuel, x :: rest =>
    if x == 58 then some ([rest], true)
    else
      match find_idx_of_space_or_end (x :: rest) with
      | none => none
      | some split =>
        match skip_leading_space ((x :: rest).drop split) with
        | none => none
        | some next =>
          match fuel with
          | 0 => none
          | fuel + 1 =>
            match parseParamsGo fuel next with
            | none => none
            | some (ps, t) => some ((x :: rest).take split :: ps, t)

/-- The parameter-collecting `while` loop of `Message::parse`. -/
def parseParams (line : List Nat) : Option (List (List Nat) × Bool) :=
  parseParamsGo line.length line

/-- `Message::parse`. The final `.unwrap()` of the inner `assemble` call
becomes `panicked` when the inner assembly does not return `Ok`. -/
def Message.parse (line : List Nat) : ParseResult :=
  match parse_tags line with
  | none => .fail
  | some (_, line) =>
  match Source.parse line with
  | none => .fail
  | some (source, line) =>
  match Command.parse line with
  | none => .fail
  | some (command, line) =>
  match parseParams line with
  | none => .fail
  | some (params, trailer) =>
  match Message.assemble source command params trailer with
  | .ok m => .ok m
  | .err _ => .panicked "called Result::unwrap on an Err value"
  | .panicked e => .panicked e

/-! ## Specification-side definitions used by the lemmas and theorems -/

/-- `content` sits in `buf` exactly at the byte positions described by `r`. -/
def rangeIsAt (buf : List Nat) (r : Range) (content : List Nat) : Prop :=
  r.stop = r.start + content.length ∧
  ∃ pre post, buf = pre ++ content ++ post ∧ pre.length = r.start

/-- The bytes `Source::inter` writes: `:` then fields with `!`/`@` separators
and a trailing space. -/
def sourceBytes : Source → List Nat
  | .Server name => 58 :: (name ++ [32])
  | .Client nick none host => 58 :: (nick ++ 64 :: (host ++ [32]))
  | .Client nick (some u) host => 58 :: (nick ++ 33 :: (u ++ 64 :: (host ++ [32])))

def sourceBytesOpt : Option Source → List Nat
  | none => []
  | some s => sourceBytes s

/-- The bytes the parameter loop writes: each param preceded by a space,
the last one also by a colon when the trailer flag is set. -/
def paramsBytes : List (List Nat) → Bool → List Nat
  | [], _ => []
  | [p], t => 32 :: (if t then 58 :: p else p)
  | p :: rest, t => 32 :: (p ++ paramsBytes rest t)

/-- The validations the parameter loop performs, all succeeding. -/
def validPs : List (List Nat) → Bool → Prop
  | [], _ => True
  | [p], t => (if t then validate_trailing_param p else validate_param p) = .ok ()
  | p :: rest, t => validate_param p = .ok () ∧ validPs rest t

/-- Each recorded range addresses the corresponding parameter's bytes in `buf`. -/
def rangesSpec (buf : List Nat) : List Range → List (List Nat) → Prop
  | [], [] => True
  | r :: rs, p :: ps => rangeIsAt buf r p ∧ rangesSpec buf rs ps
  | _, _ => False

/-- The command a `Message` reports: numerics verbatim, textuals as their
bufferized (case-folded) bytes. -/
def cmdView : Command → List Nat → Command
  | .Numeric x, _ => .Numeric x
  | .Textual _, cb => .Textual cb

/-- The fields of a `Source` are free of the bytes `Source::validate` forbids
(NUL, CR, LF, space, `@`, `!`). -/
def sourceClean : Source → Prop
  | .Server name => name.any is_nulcrlfspaceatbang = false
  | .Client nick user host =>
      nick.any is_nulcrlfspaceatbang = false ∧
      (user.getD []).any is_nulcrlfspaceatbang = false ∧
      host.any is_nulcrlfspaceatbang = false

instance : DecidablePred sourceClean := by
  intro s
  cases s <;> simp only [sourceClean] <;> infer_instance

/-- Is this token exactly three ASCII decimal digits? -/
def isThreeDigits : List Nat → Bool
  | [a, b, c] => (48 ≤ a && a ≤ 57) && (48 ≤ b && b ≤ 57) && (48 ≤ c && c ≤ 57)
  | _ => false

/-- The extra conditions under which a message's stripped raw encoding parses
back to the same data: a textual command must be non-empty, must not
uppercase-fold to three ASCII digits, and, when there is no source prefix,
must not begin (after folding) with a colon. Numeric commands always qualify. -/
def commandGood : Option Source → Command → Prop
  | _, .Numeric _ => True
  | s, .Textual b =>
      b ≠ [] ∧ isThreeDigits (b.map upcase) = false ∧
      (s = none → (b.map upcase).headD 0 ≠ 58)

/-! ## Infrastructure lemmas -/

lemma rangeIsAt.extend {buf r content} (suffix : List Nat)
    (h : rangeIsAt buf r content) : rangeIsAt (buf ++ suffix) r content := by
  obtain ⟨hlen, pre, post, hbuf, hpre⟩ := h
  exact ⟨hlen, pre, post ++ suffix, by simp [hbuf], hpre⟩

lemma rangeIsAt.stop_le {buf r content} (h : rangeIsAt buf r content) :
    r.stop ≤ buf.length := by
  obtain ⟨hlen, pre, post, hbuf, hpre⟩ := h
  subst hbuf
  simp only [hlen, ← hpre, List.length_append]
  omega

lemma rangeIsAt.extract {buf r content} (h : rangeIsAt buf r content) :
    extract_bytes buf r = content := by
  obtain ⟨hlen, pre, post, hbuf, hpre⟩ := h
  subst hbuf
  simp only [extract_bytes, hlen, ← hpre, Nat.add_sub_cancel_left, List.append_assoc]
  rw [List.drop_left, List.take_left]

lemma inter_bytes_at {buf bytes : List Nat} :
    rangeIsAt (buf ++ bytes) (inter_bytes buf bytes).2 bytes :=
  ⟨rfl, buf, [], by simp, rfl⟩

/-- Extraction of a range that provably addresses `content` inside `buf`. -/
lemma extract_bytes_at {buf : List Nat} (pre content post : List Nat) {s e : Nat}
    (hbuf : buf = pre ++ content ++ post) (hs : s = pre.length)
    (he : e = s + content.length) :
    extract_bytes buf ⟨s, e⟩ = content := by
  subst hbuf hs he
  simp only [extract_bytes, Nat.add_sub_cancel_left, List.append_assoc]
  rw [List.drop_left, List.take_left]

lemma sourceBytes_length (s : Source) : (sourceBytes s).length = s.raw_len := by
  cases s with
  | Server name =>
    simp only [sourceBytes, Source.raw_len, List.length_cons, List.length_append,
      List.length_nil]
    try omega
  | Client nick user host =>
    cases user with
    | none =>
      simp only [sourceBytes, Source.raw_len, List.length_cons, List.length_append,
        List.length_nil]
      try omega
    | some u =>
      simp only [sourceBytes, Source.raw_len, List.length_cons, List.length_append,
        List.length_nil]
      try omega

lemma source_inter_buf (s : Source) : (s.inter []).1 = sourceBytes s := by
  cases s with
  | Server name => simp [Source.inter, inter_bytes, sourceBytes]
  | Client nick user host =>
    cases user <;> simp [Source.inter, inter_bytes, sourceBytes]

lemma source_inter_extract (s : Source) (suffix : List Nat) :
    ((s.inter []).2).extract (sourceBytes s ++ suffix) = s := by
  cases s with
  | Server name =>
    simp only [Source.inter, inter_bytes, IntSource.extract, List.length_nil,
      List.nil_append, List.length_cons, List.length_singleton]
    rw [extract_bytes_at [58] name (32 :: suffix) (by simp [sourceBytes]) (by simp) rfl]
  | Client nick user host =>
    cases user with
    | none =>
      simp only [Source.inter, inter_bytes, IntSource.extract, Option.map_none',
        List.length_nil, List.nil_append, List.length_cons, List.length_append,
        List.length_singleton, Option.map]
      rw [extract_bytes_at [58] nick (64 :: (host ++ [32]) ++ suffix)
            (by simp [sourceBytes]) (by simp) (by omega),
          extract_bytes_at (58 :: (nick ++ [64])) host (32 :: suffix)
            (by simp [sourceBytes]) (by simp; omega) (by omega)]
    | some u =>
      simp only [Source.inter, inter_bytes, IntSource.extract, List.length_nil,
        List.nil_append, List.length_cons, List.length_append, List.length_singleton,
        Option.map]
      rw [extract_bytes_at [58] nick (33 :: (u ++ 64 :: (host ++ [32])) ++ suffix)
            (by simp [sourceBytes]) (by simp) (by omega),
          extract_bytes_at (58 :: (nick ++ [33])) u (64 :: (host ++ [32]) ++ suffix)
            (by simp [sourceBytes]) (by simp; omega) (by omega),
          extract_bytes_at (58 :: (nick ++ 33 :: (u ++ [64]))) host (32 :: suffix)
            (by simp [sourceBytes]) (by simp; omega) (by omega)]

lemma rangesSpec.length {buf rs ps} (h : rangesSpec buf rs ps) :
    rs.length = ps.length := by
  induction rs generalizing ps with
  | nil => cases ps with
    | nil => rfl
    | cons p ps => exact absurd h (by simp [rangesSpec])
  | cons r rs ih =>
    cases ps with
    | nil => exact absurd h (by simp [rangesSpec])
    | cons p ps => simpa using ih h.2

lemma rangesSpec.nth {buf rs ps} (h : rangesSpec buf rs ps) :
    ∀ n, n < ps.length → ∃ r p, rs.get? n = some r ∧ ps.get? n = some p ∧ rangeIsAt buf r p := by
  induction rs generalizing ps with
  | nil => cases ps with
    | nil => intro n hn; simp at hn
    | cons p ps => exact absurd h (by simp [rangesSpec])
  | cons r rs ih =>
    cases ps with
    | nil => exact absurd h (by simp [rangesSpec])
    | cons p ps =>
      intro n hn
      cases n with
      | zero => exact ⟨r, p, rfl, rfl, h.1⟩
      | succ k =>
        obtain ⟨r', p', h1, h2, h3⟩ := ih h.2 k (by simpa using hn)
        exact ⟨r', p', h1, h2, h3⟩

lemma paramsBytes_length (ps : List (List Nat)) (t : Bool) :
    (paramsBytes ps t).length =
      (ps.map (fun x => x.length + 1)).sum + (if t = true ∧ ps ≠ [] then 1 else 0) := by
  induction ps with
  | nil => simp [paramsBytes]
  | cons p rest ih =>
    cases rest with
    | nil => cases t <;> simp [paramsBytes]
    | cons q rest' =>
      have : (paramsBytes (q :: rest') t).length =
          ((q :: rest').map (fun x => x.length + 1)).sum +
            (if t = true ∧ q :: rest' ≠ [] then 1 else 0) := ih
      cases t <;> simp [paramsBytes, this] <;> omega

/-- Forward characterization of the parameter loop on valid input. -/
lemma interParams_ok (ps : List (List Nat)) (t : Bool) :
    ∀ buf, validPs ps t → ∃ rs,
      interParams buf ps t = .ok (buf ++ paramsBytes ps t, rs) ∧
      rangesSpec (buf ++ paramsBytes ps t) rs ps := by
  induction ps with
  | nil => intro buf _; exact ⟨[], by simp [interParams, paramsBytes], trivial⟩
  | cons p rest ih =>
    intro buf hv
    cases rest with
    | nil =>
      cases t with
      | false =>
        have hvp : validate_param p = .ok () := by simpa [validPs] using hv
        refine ⟨[⟨buf.length + 1, buf.length + 1 + p.length⟩], ?_, ?_, trivial⟩
        · simp [interParams, hvp, inter_bytes, paramsBytes]
        · exact ⟨rfl, buf ++ [32], [], by simp [paramsBytes], by simp⟩
      | true =>
        have hvp : validate_trailing_param p = .ok () := by simpa [validPs] using hv
        refine ⟨[⟨buf.length + 2, buf.length + 2 + p.length⟩], ?_, ?_, trivial⟩
        · simp [interParams, hvp, inter_bytes, paramsBytes]
        · exact ⟨rfl, buf ++ [32, 58], [], by simp [paramsBytes], by simp⟩
    | cons q rest' =>
      obtain ⟨hvp, hvr⟩ : validate_param p = .ok () ∧ validPs (q :: rest') t := hv
      obtain ⟨rs, hip, hrs⟩ := ih (buf ++ [32] ++ p) hvr
      refine ⟨⟨buf.length + 1, buf.length + 1 + p.length⟩ :: rs, ?_, ?_, ?_⟩
      · simp only [interParams, hvp, inter_bytes]
        rw [hip]
        simp [paramsBytes]
      · exact ⟨rfl, buf ++ [32], paramsBytes (q :: rest') t, by simp [paramsBytes], by simp⟩
      · have h2 : buf ++ [32] ++ p ++ paramsBytes (q :: rest') t =
            buf ++ paramsBytes (p :: q :: rest') t := by simp [paramsBytes]
        rw [← h2]; exact hrs

/-- The parameter loop only succeeds when every parameter validates. -/
lemma interParams_ok_valid (ps : List (List Nat)) (t : Bool) :
    ∀ buf out, interParams buf ps t = .ok out → validPs ps t := by
  induction ps with
  | nil => intro buf out _; trivial
  | cons p rest ih =>
    intro buf out h
    cases rest with
    | nil =>
      cases t with
      | false =>
        cases hv : validate_param p with
        | error e => simp [interParams, hv] at h
        | ok u => cases u; simpa [validPs] using hv
      | true =>
        cases hv : validate_trailing_param p with
        | error e => simp [interParams, hv] at h
        | ok u => cases u; simpa [validPs] using hv
    | cons q rest' =>
      cases hv : validate_param p with
      | error e => simp [interParams, hv] at h
      | ok u =>
        cases u
        simp only [interParams, hv] at h
        refine ⟨hv, ?_⟩
        cases hip : interParams (inter_bytes (buf ++ [32]) p).1 (q :: rest') t with
        | error e2 => rw [hip] at h; exact absurd h (by simp)
        | ok pair => exact ih _ _ hip

/-! ## The offset table and the `assemble` characterizations -/

lemma from_to_ne (n : Nat) (h : n ≤ 4294967295) :
    from_ne_bytes (to_ne_bytes n) = n := by
  simp only [to_ne_bytes, from_ne_bytes]
  omega

lemma tableBytes_cons (r0 : Range) (rest : List Range) :
    tableBytes (r0 :: rest)
      = (to_ne_bytes r0.start ++ to_ne_bytes r0.stop) ++ tableBytes rest := by
  simp [tableBytes]

lemma tableBytes_length (rs : List Range) : (tableBytes rs).length = rs.length * 8 := by
  induction rs with
  | nil => rfl
  | cons r rest ih =>
    rw [tableBytes_cons, List.length_append, ih,
      show (to_ne_bytes r.start ++ to_ne_bytes r.stop).length = 8 from rfl]
    simp only [List.length_cons]
    ring

lemma drop_app_add (a b : List Nat) (k : Nat) : (a ++ b).drop (a.length + k) = b.drop k := by
  induction a with
  | nil => simp
  | cons x rest ih =>
    rw [List.cons_append, List.length_cons,
      show rest.length + 1 + k = (rest.length + k) + 1 from by omega,
      List.drop_succ_cons]
    exact ih

lemma tableBytes_get (rs : List Range) :
    ∀ n r, rs.get? n = some r →
      ((tableBytes rs).drop (n * 8)).take 4 = to_ne_bytes r.start ∧
      ((tableBytes rs).drop (n * 8 + 4)).take 4 = to_ne_bytes r.stop := by
  induction rs with
  | nil => intro n r h; simp at h
  | cons r0 rest ih =>
    intro n r h
    cases n with
    | zero =>
      have hr : r0 = r := by simpa using h
      subst hr
      rw [tableBytes_cons]
      constructor
      · rw [show (0 * 8 : Nat) = 0 from rfl, List.drop_zero, List.append_assoc,
          show (4 : Nat) = (to_ne_bytes r0.start).length from rfl, List.take_left]
      · rw [List.append_assoc,
          show (0 * 8 + 4 : Nat) = (to_ne_bytes r0.start).length + 0 from rfl,
          drop_app_add, List.drop_zero,
          show (4 : Nat) = (to_ne_bytes r0.stop).length from rfl, List.take_left]
    | succ k =>
      have hk := ih k r (by simpa using h)
      rw [tableBytes_cons]
      constructor
      · rw [show (k + 1) * 8
            = (to_ne_bytes r0.start ++ to_ne_bytes r0.stop).length + k * 8 from by
              rw [show (to_ne_bytes r0.start ++ to_ne_bytes r0.stop).length = 8 from rfl]
              ring,
          drop_app_add]
        exact hk.1
      · rw [show (k + 1) * 8 + 4
            = (to_ne_bytes r0.start ++ to_ne_bytes r0.stop).length + (k * 8 + 4) from by
              rw [show (to_ne_bytes r0.start ++ to_ne_bytes r0.stop).length = 8 from rfl]
              ring,
          drop_app_add]
        exact hk.2

lemma interSourceOpt_buf (s : Option Source) : (interSourceOpt s).1 = sourceBytesOpt s := by
  cases s with
  | none => rfl
  | some src =>
    have h := source_inter_buf src
    cases hsi : src.inter [] with
    | mk b i =>
      rw [hsi] at h
      simp [interSourceOpt, hsi, sourceBytesOpt, h]

lemma interSourceOpt_extract (s : Option Source) (suffix : List Nat) :
    ((interSourceOpt s).2).map (fun x => x.extract (sourceBytesOpt s ++ suffix)) = s := by
  cases s with
  | none => rfl
  | some src =>
    have h := source_inter_extract src suffix
    cases hsi : src.inter [] with
    | mk b i =>
      rw [hsi] at h
      simp [interSourceOpt, hsi, sourceBytesOpt, h]

lemma raw_len_opt (s : Option Source) :
    (s.map Source.raw_len).getD 0 = (sourceBytesOpt s).length := by
  cases s with
  | none => rfl
  | some src => simp [sourceBytesOpt, sourceBytes_length]

lemma command_inter_buf (c : Command) (cb buf : List Nat) :
    (c.inter cb buf).1 = buf ++ cb := by
  cases c <;> simp [Command.inter, inter_bytes]

lemma command_inter_extract (c : Command) (cb buf suffix : List Nat) :
    ((c.inter cb buf).2).extract (buf ++ cb ++ suffix) = cmdView c cb := by
  cases c with
  | Numeric x => simp [Command.inter, inter_bytes, IntCommand.extract, cmdView]
  | Textual b =>
    simp only [Command.inter, inter_bytes, IntCommand.extract, cmdView]
    rw [extract_bytes_at buf cb suffix rfl rfl rfl]

lemma take_app2 (a b c : List Nat) {n : Nat} (h : a.length = n) :
    (a ++ b ++ c).take n = a := by
  subst h
  rw [List.append_assoc, List.take_left]

/-- Full characterization of a successful assembly: when every validation
passes, the trailer flag is coherent, and the riduculous-length guard is clear,
`assemble` succeeds and every accessor reads back the assembled parts. -/
theorem assemble_ok_rich {s : Option Source} {c : Command} {ps : List (List Nat)}
    {t : Bool} {cb : List Nat}
    (hsv : validateSourceOpt s = .ok ())
    (hcb : c.bufferize = .ok cb)
    (hps : validPs ps t)
    (ht : t = true → ps ≠ [])
    (hbound : ((s.map Source.raw_len).getD 0 + cb.length
        + (ps.map (fun x => x.length + 1)).sum + (if t then 3 else 2) + 7) / 8 * 8
        + ps.length * 8 ≤ 4294967295) :
    ∃ m, Message.assemble s c ps t = .ok m ∧
      m.has_trailer = t ∧
      m.get_raw = sourceBytesOpt s ++ cb ++ paramsBytes ps t ++ [13, 10] ∧
      m.get_source = s ∧
      m.get_command = cmdView c cb ∧
      m.get_param_count = ps.length ∧
      (∀ n, m.get_nth_param n = ps.get? n) ∧
      m.buf.length ≤ 4294967295 := by
  rcases hpair : interSourceOpt s with ⟨bsrc, isrc⟩
  have hbsrc : bsrc = sourceBytesOpt s := by
    have h := interSourceOpt_buf s
    rw [hpair] at h
    exact h
  subst hbsrc
  rcases hcpair : Command.inter c cb (sourceBytesOpt s) with ⟨bc, ic⟩
  have hbc : bc = sourceBytesOpt s ++ cb := by
    have h := command_inter_buf c cb (sourceBytesOpt s)
    rw [hcpair] at h
    exact h
  subst hbc
  obtain ⟨rs, hip, hrs⟩ := interParams_ok ps t (sourceBytesOpt s ++ cb) hps
  have hrslen : rs.length = ps.length := hrs.length
  set ML := (s.map Source.raw_len).getD 0 + cb.length
      + (ps.map (fun x => x.length + 1)).sum + (if t then 3 else 2) with hMLdef
  have hml : ((sourceBytesOpt s ++ cb) ++ paramsBytes ps t ++ [13, 10]).length = ML := by
    rw [hMLdef, raw_len_opt]
    simp only [List.length_append, paramsBytes_length, List.length_cons, List.length_nil]
    cases t with
    | true =>
      rw [if_pos (⟨rfl, ht rfl⟩ : true = true ∧ ps ≠ []), if_pos rfl]
      omega
    | false =>
      rw [if_neg (by simp), if_neg (by simp)]
      omega
  have hguard : ¬((ML + 7) / 8 * 8 + ps.length * 8 > 4294967295) := by omega
  have hasm : Message.assemble s c ps t = .ok
      { buf := sourceBytesOpt s ++ cb ++ paramsBytes ps t ++ [13, 10]
          ++ List.replicate ((ML + 7) / 8 * 8
              - (sourceBytesOpt s ++ cb ++ paramsBytes ps t ++ [13, 10]).length) 0
          ++ tableBytes rs,
        source := isrc,
        command := ic,
        param_data_range := ⟨(ML + 7) / 8 * 8, (ML + 7) / 8 * 8 + ps.length * 8⟩,
        raw_message_len := ML,
        trailer := t } := by
    simp only [Message.assemble, hsv, hcb, hpair, hcpair, hip]
    rw [← hMLdef, if_neg hguard, if_neg (not_ne_iff.mpr hml)]
    rw [if_neg (not_ne_iff.mpr (by
      simp only [List.length_append, List.length_replicate, tableBytes_length, hrslen,
        List.length_cons, List.length_nil]
      have h3 := hml
      simp only [List.length_append, List.length_cons, List.length_nil] at h3
      omega))]
  refine ⟨_, hasm, ?_, ?_, ?_, ?_, ?_, ?_, ?_⟩
  · rfl
  · -- get_raw
    simp only [Message.get_raw]
    exact take_app2 _ _ _ hml
  · -- get_source
    have h := interSourceOpt_extract s (cb ++ paramsBytes ps t ++ [13, 10]
        ++ List.replicate ((ML + 7) / 8 * 8
            - (sourceBytesOpt s ++ cb ++ paramsBytes ps t ++ [13, 10]).length) 0
        ++ tableBytes rs)
    rw [hpair] at h
    simp only [Message.get_source, ← List.append_assoc] at h ⊢
    exact h
  · -- get_command
    have h := command_inter_extract c cb (sourceBytesOpt s) (paramsBytes ps t ++ [13, 10]
        ++ List.replicate ((ML + 7) / 8 * 8
            - (sourceBytesOpt s ++ cb ++ paramsBytes ps t ++ [13, 10]).length) 0
        ++ tableBytes rs)
    rw [hcpair] at h
    simp only [Message.get_command, ← List.append_assoc] at h ⊢
    exact h
  · -- get_param_count
    show ((ML + 7) / 8 * 8 + ps.length * 8 - (ML + 7) / 8 * 8) / 8 = ps.length
    omega
  · -- get_nth_param
    intro n
    have hplist : extract_bytes
        (sourceBytesOpt s ++ cb ++ paramsBytes ps t ++ [13, 10]
          ++ List.replicate ((ML + 7) / 8 * 8
              - (sourceBytesOpt s ++ cb ++ paramsBytes ps t ++ [13, 10]).length) 0
          ++ tableBytes rs)
        ⟨(ML + 7) / 8 * 8, (ML + 7) / 8 * 8 + ps.length * 8⟩ = tableBytes rs := by
      refine extract_bytes_at
        (sourceBytesOpt s ++ cb ++ paramsBytes ps t ++ [13, 10]
          ++ List.replicate ((ML + 7) / 8 * 8
              - (sourceBytesOpt s ++ cb ++ paramsBytes ps t ++ [13, 10]).length) 0)
        (tableBytes rs) [] (by simp [List.append_assoc]) ?_ ?_
      · simp only [List.length_append, List.length_replicate, List.length_cons,
          List.length_nil]
        have h3 := hml
        simp only [List.length_append, List.length_cons, List.length_nil] at h3
        omega
      · rw [tableBytes_length, hrslen]
    simp only [Message.get_nth_param, hplist]
    rw [tableBytes_length, hrslen]
    by_cases hn : n ≥ ps.length
    · rw [if_pos (by omega)]
      exact (List.get?_eq_none.mpr hn).symm
    · push_neg at hn
      rw [if_neg (by omega)]
      obtain ⟨r, p, hr, hp, hat⟩ := hrs.nth n hn
      obtain ⟨htab1, htab2⟩ := tableBytes_get rs n r hr
      have hstople := hat.stop_le
      have hstartle : r.start ≤ r.stop := by
        obtain ⟨hl, _⟩ := hat
        omega
      have hW2 : (sourceBytesOpt s ++ cb ++ paramsBytes ps t).length ≤ 4294967295 := by
        have h3 := hml
        simp only [List.length_append, List.length_cons, List.length_nil] at h3 ⊢
        omega
      rw [htab1, htab2, from_to_ne r.start (by omega), from_to_ne r.stop (by omega)]
      have hat2 : rangeIsAt
          (sourceBytesOpt s ++ cb ++ paramsBytes ps t ++ [13, 10]
            ++ List.replicate ((ML + 7) / 8 * 8
                - (sourceBytesOpt s ++ cb ++ paramsBytes ps t ++ [13, 10]).length) 0
            ++ tableBytes rs) r p := by
      -- extend the in-place fact across the CR LF, the padding, and the table
        have h := (hat.extend ([13, 10]
          ++ List.replicate ((ML + 7) / 8 * 8
              - (sourceBytesOpt s ++ cb ++ paramsBytes ps t ++ [13, 10]).length) 0
          ++ tableBytes rs))
        obtain ⟨h1, pre, post, hbuf, hpre⟩ := h
        refine ⟨h1, pre, post, ?_, hpre⟩
        rw [← hbuf]
        simp [List.append_assoc]
      rw [show (⟨r.start, r.stop⟩ : Range) = r from rfl, hat2.extract, hp]
  · -- total buffer length is within the u32 guard
    show (sourceBytesOpt s ++ cb ++ paramsBytes ps t ++ [13, 10]
        ++ List.replicate ((ML + 7) / 8 * 8
            - (sourceBytesOpt s ++ cb ++ paramsBytes ps t ++ [13, 10]).length) 0
        ++ tableBytes rs).length ≤ 4294967295
    simp only [List.length_append, List.length_replicate, tableBytes_length, hrslen,
      List.length_cons, List.length_nil]
    have h3 := hml
    simp only [List.length_append, List.length_cons, List.length_nil] at h3
    omega

/-- Inversion: whenever `assemble` returns `Ok`, every validation must have
passed, a trailer implies a non-empty parameter list, and the accessors of the
returned message read back the assembled parts. -/
theorem assemble_ok_inv {s : Option Source} {c : Command} {ps : List (List Nat)}
    {t : Bool} {m : Message} (h : Message.assemble s c ps t = .ok m) :
    ∃ cb, validateSourceOpt s = .ok () ∧ c.bufferize = .ok cb ∧ validPs ps t ∧
      (t = true → ps ≠ []) ∧
      m.has_trailer = t ∧
      m.get_raw = sourceBytesOpt s ++ cb ++ paramsBytes ps t ++ [13, 10] ∧
      m.get_source = s ∧
      m.get_command = cmdView c cb ∧
      m.get_param_count = ps.length ∧
      (∀ n, m.get_nth_param n = ps.get? n) ∧
      m.buf.length ≤ 4294967295 ∧
      ((s.map Source.raw_len).getD 0 + cb.length
        + (ps.map (fun x => x.length + 1)).sum + (if t then 3 else 2) + 7) / 8 * 8
        + ps.length * 8 ≤ 4294967295 := by
  have h0 := h
  cases hsv : validateSourceOpt s with
  | error e =>
    simp only [Message.assemble, hsv] at h
    exact absurd h (by simp)
  | ok u =>
  cases u
  cases hcb : c.bufferize with
  | error e =>
    simp only [Message.assemble, hsv, hcb] at h
    exact absurd h (by simp)
  | ok cb =>
  rcases hpair : interSourceOpt s with ⟨bsrc, isrc⟩
  have hbsrc : bsrc = sourceBytesOpt s := by
    have hx := interSourceOpt_buf s
    rw [hpair] at hx
    exact hx
  subst hbsrc
  rcases hcpair : Command.inter c cb (sourceBytesOpt s) with ⟨bc, ic⟩
  have hbc : bc = sourceBytesOpt s ++ cb := by
    have hx := command_inter_buf c cb (sourceBytesOpt s)
    rw [hcpair] at hx
    exact hx
  subst hbc
  cases hip : interParams (sourceBytesOpt s ++ cb) ps t with
  | error e =>
    simp only [Message.assemble, hsv, hcb, hpair, hcpair, hip] at h
    split at h <;> split at h <;> exact absurd h (by simp)
  | ok pair =>
  obtain ⟨bp, rs⟩ := pair
  have hvalid := interParams_ok_valid ps t _ _ hip
  obtain ⟨rs2, hip2, _⟩ := interParams_ok ps t (sourceBytesOpt s ++ cb) hvalid
  rw [hip] at hip2
  have hbp : bp = sourceBytesOpt s ++ cb ++ paramsBytes ps t := by
    simp only [Except.ok.injEq, Prod.mk.injEq] at hip2
    exact hip2.1
  subst hbp
  simp only [Message.assemble, hsv, hcb, hpair, hcpair, hip] at h
  set K := (if t = true then (3 : Nat) else 2) with hKdef
  split at h
  · exact absurd h (by simp)
  · next hguardneg =>
    split at h
    · exact absurd h (by simp)
    · next hlenne =>
      have hlen := not_ne_iff.mp hlenne
      have ht : t = true → ps ≠ [] := by
        intro htt hnil
        subst hnil
        have hK3 : K = 3 := by rw [hKdef, if_pos htt]
        rw [raw_len_opt] at hlen
        simp only [paramsBytes, List.length_append, List.length_cons, List.length_nil,
          List.map_nil, List.sum_nil] at hlen
        omega
      have hboundK := Nat.not_lt.mp hguardneg
      have hbound := hboundK
      rw [hKdef] at hbound
      obtain ⟨m2, hasm2, hrest⟩ := assemble_ok_rich hsv hcb hvalid ht hbound
      rw [h0] at hasm2
      have hm : m = m2 := by
        simpa using hasm2
      subst hm
      exact ⟨cb, rfl, rfl, hvalid, ht, hrest.1, hrest.2.1, hrest.2.2.1, hrest.2.2.2.1,
        hrest.2.2.2.2.1, hrest.2.2.2.2.2.1, hrest.2.2.2.2.2.2, hboundK⟩

/-! ## Arithmetic facts about the numeric formatter and the case folder -/

lemma decDigitsFuel_small (fuel n : Nat) (hf : 1 ≤ fuel) (h : n < 10) :
    decDigitsFuel fuel n = [n] := by
  cases fuel with
  | zero => omega
  | succ f => simp only [decDigitsFuel]; rw [if_pos h]

lemma decDigitsFuel_mid (fuel n : Nat) (hf : 2 ≤ fuel) (h1 : 10 ≤ n) (h2 : n < 100) :
    decDigitsFuel fuel n = [n / 10, n % 10] := by
  cases fuel with
  | zero => omega
  | succ f =>
    simp only [decDigitsFuel]
    rw [if_neg (by omega), decDigitsFuel_small f (n / 10) (by omega) (by omega)]
    rfl

lemma decDigitsFuel_big (fuel n : Nat) (hf : 3 ≤ fuel) (h1 : 100 ≤ n) (h2 : n < 1000) :
    decDigitsFuel fuel n = [n / 100, n / 10 % 10, n % 10] := by
  cases fuel with
  | zero => omega
  | succ f =>
    simp only [decDigitsFuel]
    rw [if_neg (by omega), decDigitsFuel_mid f (n / 10) (by omega) (by omega) (by omega)]
    rw [show n / 10 / 10 = n / 100 from by omega]
    rfl

lemma fmt03_digits (n : Nat) (h1 : 1 ≤ n) (h2 : n ≤ 999) :
    fmt03 n = [48 + n / 100, 48 + n / 10 % 10, 48 + n % 10] := by
  by_cases ha : n < 10
  · rw [fmt03, decDigits, decDigitsFuel_small n n (by omega) ha]
    rw [show n / 100 = 0 from by omega, show n / 10 % 10 = 0 from by omega,
      show (48 : Nat) + n % 10 = 48 + n from by omega]
    rfl
  · by_cases hb : n < 100
    · rw [fmt03, decDigits, decDigitsFuel_mid n n (by omega) (by omega) hb]
      rw [show n / 100 = 0 from by omega, show n / 10 % 10 = n / 10 from by omega]
      rfl
    · rw [fmt03, decDigits, decDigitsFuel_big n n (by omega) (by omega) (by omega)]
      rfl

lemma upcase_lower {x : Nat} (h1 : 97 ≤ x) (h2 : x ≤ 122) : upcase x = x - 32 := by
  rw [upcase, if_pos ⟨h1, h2⟩]
  interval_cases x <;> rfl

lemma upcase_other {x : Nat} (h : ¬(97 ≤ x ∧ x ≤ 122)) : upcase x = x := by
  rw [upcase, if_neg h]

lemma upcase_idem (x : Nat) : upcase (upcase x) = upcase x := by
  by_cases h : 97 ≤ x ∧ x ≤ 122
  · rw [upcase_lower h.1 h.2, upcase_other (by omega)]
  · rw [upcase_other h, upcase_other h]

/-- Case folding never produces NUL, CR, LF, or space from a byte that is
none of these. -/
lemma upcase_not_nulcrlfspace {x : Nat} (h : is_nulcrlfspace x = false) :
    is_nulcrlfspace (upcase x) = false := by
  by_cases hl : 97 ≤ x ∧ x ≤ 122
  · rw [upcase_lower hl.1 hl.2]
    simp only [is_nulcrlfspace, Bool.or_eq_false_iff, beq_eq_false_iff_ne, ne_eq]
    omega
  · rw [upcase_other hl]
    exact h

/-! ## Inverting `Message::parse` down to its inner `assemble` call -/

/-- A parse that returns `Ok` did so by assembling the parsed pieces. -/
lemma parse_ok_inv {line : List Nat} {m : Message} (h : Message.parse line = .ok m) :
    ∃ s c ps t, Message.assemble s c ps t = .ok m := by
  cases h1 : parse_tags line with
  | none =>
    simp only [Message.parse, h1] at h
    exact absurd h (by simp)
  | some p1 =>
  obtain ⟨tg, l1⟩ := p1
  cases h2 : Source.parse l1 with
  | none =>
    simp only [Message.parse, h1, h2] at h
    exact absurd h (by simp)
  | some p2 =>
  obtain ⟨src, l2⟩ := p2
  cases h3 : Command.parse l2 with
  | none =>
    simp only [Message.parse, h1, h2, h3] at h
    exact absurd h (by simp)
  | some p3 =>
  obtain ⟨cmd, l3⟩ := p3
  cases h4 : parseParams l3 with
  | none =>
    simp only [Message.parse, h1, h2, h3, h4] at h
    exact absurd h (by simp)
  | some p4 =>
  obtain ⟨ps, t⟩ := p4
  cases h5 : Message.assemble src cmd ps t with
  | ok m2 =>
    simp only [Message.parse, h1, h2, h3, h4, h5] at h
    injection h with hh
    subst hh
    exact ⟨src, cmd, ps, t, h5⟩
  | err e =>
    simp only [Message.parse, h1, h2, h3, h4, h5] at h
    exact absurd h (by simp)
  | panicked e =>
    simp only [Message.parse, h1, h2, h3, h4, h5] at h
    exact absurd h (by simp)

/-! ## Claim theorems -/

/-- C3 counterexample: with trailer set and no parameters, `assemble` does not
return a validation failure (nor a message) — it trips the release-mode
`assert_eq!(buf.len(), message_len)` and panics. -/
theorem C3_cex_trailer_empty_panics :
    Message.assemble none (.Numeric 1) [] true
      = .panicked "assertion failed: buf.len() == message_len" := by
  rfl

/-- C3 (amended): for every source and command that pass their own validation
(and whose encoding fits the `u32` guard), calling `assemble` with the trailer
flag set and an empty parameter list aborts via the buffer-length assertion —
it neither succeeds nor returns a named validation failure. -/
theorem C3_trailer_empty_amended (s : Option Source) (c : Command) (cb : List Nat)
    (hsv : validateSourceOpt s = .ok ())
    (hcb : c.bufferize = .ok cb)
    (hbound : (s.map Source.raw_len).getD 0 + cb.length + 10 ≤ 4294967295) :
    Message.assemble s c [] true
      = .panicked "assertion failed: buf.len() == message_len" := by
  rcases hpair : interSourceOpt s with ⟨bsrc, isrc⟩
  have hbsrc : bsrc = sourceBytesOpt s := by
    have hx := interSourceOpt_buf s
    rw [hpair] at hx
    exact hx
  subst hbsrc
  rcases hcpair : Command.inter c cb (sourceBytesOpt s) with ⟨bc, ic⟩
  have hbc : bc = sourceBytesOpt s ++ cb := by
    have hx := command_inter_buf c cb (sourceBytesOpt s)
    rw [hcpair] at hx
    exact hx
  subst hbc
  simp only [Message.assemble, hsv, hcb, hpair, hcpair, interParams,
    List.map_nil, List.sum_nil, List.length_nil, if_true]
  rw [if_neg (by omega)]
  rw [if_pos (by
    rw [raw_len_opt] at hbound ⊢
    simp only [List.length_append, List.length_cons, List.length_nil]
    omega)]

/-- C6: `Numeric(5)` encodes as the three ASCII bytes `"005"` (both through
`bufferize` and in the raw bytes of an assembled message); `Numeric(n)` with
`n = 0` or `n > 999` always fails assembly with a validation error; and for
`1 ≤ n ≤ 999` the command bufferizes to exactly three zero-padded ASCII
decimal digits. -/
theorem C6_numeric_formatting :
    (Command.bufferize (.Numeric 5) = .ok [48, 48, 53]) ∧
    (∃ m, Message.assemble none (.Numeric 5) [] false = .ok m ∧
        Message.get_raw m = [48, 48, 53, 13, 10]) ∧
    (∀ n s ps t, n = 0 ∨ n > 999 →
        ∃ e, Message.assemble s (.Numeric n) ps t = .err e) ∧
    (∀ n, 1 ≤ n → n ≤ 999 →
        Command.bufferize (.Numeric n)
          = .ok [48 + n / 100, 48 + n / 10 % 10, 48 + n % 10]) := by
  refine ⟨by rfl, ⟨_, rfl, rfl⟩, ?_, ?_⟩
  · intro n s ps t hn
    have hb : Command.bufferize (.Numeric n) = .error "Invalid command number" := by
      simp only [Command.bufferize]
      rw [if_pos (by
        simp only [Bool.or_eq_true, beq_iff_eq, decide_eq_true_eq]
        omega)]
    cases hsv : validateSourceOpt s with
    | error e => exact ⟨e, by simp only [Message.assemble, hsv]⟩
    | ok u =>
      cases u
      exact ⟨"Invalid command number", by simp only [Message.assemble, hsv, hb]⟩
  · intro n h1 h2
    simp only [Command.bufferize]
    rw [if_neg (by
      simp only [Bool.or_eq_true, beq_iff_eq, decide_eq_true_eq]
      omega)]
    rw [fmt03_digits n h1 h2]

/-- C6 witness. -/
theorem C6_numeric_formatting_witness :
    (∃ e, Message.assemble none (.Numeric 1000) [] false = .err e) ∧
    Command.bufferize (.Numeric 314)
      = .ok [48 + 314 / 100, 48 + 314 / 10 % 10, 48 + 314 % 10] :=
  ⟨C6_numeric_formatting.2.2.1 1000 none [] false (Or.inr (by decide)),
   C6_numeric_formatting.2.2.2 314 (by decide) (by decide)⟩

/-- C7 counterexample: an empty textual command is accepted, not rejected —
`bufferize` succeeds with the empty byte string and a whole assembly
around it succeeds too. -/
theorem C7_cex_empty_textual_accepted :
    Command.bufferize (.Textual []) = .ok [] ∧
    ∃ m, Message.assemble none (.Textual []) [] false = .ok m :=
  ⟨rfl, ⟨_, rfl⟩⟩

/-- C7 (amended): `bufferize` of a textual command fails exactly when the
bytes contain NUL, CR, LF, or space; an empty byte string is accepted and
folded to the (empty) uppercase form. -/
theorem C7_textual_validation_amended (b : List Nat) :
    (b.any is_nulcrlfspace = true →
      Command.bufferize (.Textual b) = .error "invalid character in command name") ∧
    (b.any is_nulcrlfspace = false →
      Command.bufferize (.Textual b) = .ok (b.map upcase)) := by
  constructor <;> intro h <;> simp [Command.bufferize, h]

/-- C7 witness. -/
theorem C7_textual_validation_amended_witness :
    Command.bufferize (.Textual [70, 32, 79]) = .error "invalid character in command name" ∧
    Command.bufferize (.Textual [102, 111, 111]) = .ok ([102, 111, 111].map upcase) :=
  ⟨(C7_textual_validation_amended [70, 32, 79]).1 (by decide),
   (C7_textual_validation_amended [102, 111, 111]).2 (by decide)⟩

/-- C8: whenever assembly of a textual command succeeds, the message reports
the command as the uppercased bytes, those uppercased bytes appear verbatim in
the raw wire bytes, and the fold maps each lowercase ASCII letter to its
uppercase (x − 32) while leaving every other byte unchanged. -/
theorem C8_case_normalization (s : Option Source) (b : List Nat)
    (ps : List (List Nat)) (t : Bool) (m : Message)
    (h : Message.assemble s (.Textual b) ps t = .ok m) :
    Message.get_command m = .Textual (b.map upcase) ∧
    (∃ pre post, Message.get_raw m = pre ++ b.map upcase ++ post) ∧
    (∀ x, 97 ≤ x → x ≤ 122 → upcase x = x - 32) ∧
    (∀ x, ¬(97 ≤ x ∧ x ≤ 122) → upcase x = x) := by
  obtain ⟨cb, _, hcb, _, _, _, hraw, _, hcmd, _, _, _, _⟩ := assemble_ok_inv h
  have hcbv : cb = b.map upcase := by
    simp only [Command.bufferize] at hcb
    split at hcb
    · exact absurd hcb (by simp)
    · injection hcb with hh
      exact hh.symm
  subst hcbv
  refine ⟨by rw [hcmd]; rfl, ⟨sourceBytesOpt s, paramsBytes ps t ++ [13, 10], ?_⟩,
    fun x hx1 hx2 => upcase_lower hx1 hx2, fun x hx => upcase_other hx⟩
  rw [hraw]
  simp [List.append_assoc]

/-- C8 witness. -/
theorem C8_case_normalization_witness :
    ∃ m, Message.assemble none (.Textual [102, 111, 111]) [] false = .ok m ∧
      Message.get_command m = .Textual ([102, 111, 111].map upcase) :=
  ⟨_, rfl, (C8_case_normalization none [102, 111, 111] [] false _ rfl).1⟩

/-- C9: for any assembled message the parameter count equals the number of
assembled parameters, any index at or past the count yields `none`, and any
index below it yields exactly that parameter's bytes; messages obtained from
`parse` (which ends in an `assemble`) behave the same at out-of-range
indices. -/
theorem C9_nth_param :
    (∀ s c ps t m, Message.assemble s c ps t = .ok m →
      Message.get_param_count m = ps.length ∧
      (∀ n, ps.length ≤ n → Message.get_nth_param m n = none) ∧
      (∀ n, n < ps.length → Message.get_nth_param m n = ps.get? n)) ∧
    (∀ line m, Message.parse line = .ok m →
      ∀ n, Message.get_param_count m ≤ n → Message.get_nth_param m n = none) := by
  constructor
  · intro s c ps t m h
    obtain ⟨cb, _, _, _, _, _, _, _, _, hcount, hnth, _, _⟩ := assemble_ok_inv h
    exact ⟨hcount,
      fun n hn => by rw [hnth n]; exact List.get?_eq_none.mpr hn,
      fun n _ => hnth n⟩
  · intro line m hp n hn
    obtain ⟨s, c, ps, t, hasm⟩ := parse_ok_inv hp
    obtain ⟨cb, _, _, _, _, _, _, _, _, hcount, hnth, _, _⟩ := assemble_ok_inv hasm
    rw [hnth n]
    rw [hcount] at hn
    exact List.get?_eq_none.mpr hn

/-- C9 witness. -/
theorem C9_nth_param_witness :
    ∃ m, Message.assemble none (.Textual [70, 79, 79]) [[97], [98, 98]] false = .ok m ∧
      Message.get_param_count m = 2 ∧
      Message.get_nth_param m 2 = none ∧
      Message.get_nth_param m 0 = some [97] := by
  refine ⟨_, rfl, ?_, ?_, ?_⟩
  · exact (C9_nth_param.1 none (.Textual [70, 79, 79]) [[97], [98, 98]] false _ rfl).1
  · exact (C9_nth_param.1 none (.Textual [70, 79, 79]) [[97], [98, 98]] false _ rfl).2.1
      2 (by decide)
  · rw [(C9_nth_param.1 none (.Textual [70, 79, 79]) [[97], [98, 98]] false _ rfl).2.2
      0 (by decide)]
    rfl

/-- C10: source validation only scans for forbidden bytes and never requires
non-emptiness — every `Source` whose fields avoid NUL/CR/LF/space/`@`/`!`
validates, including ones with empty fields, a whole assembly around any such
source succeeds (within the `u32` length guard), and `Server{name=""}`
encodes with the prefix `": "`. -/
theorem C10_source_empty_ok :
    (∀ src : Source, sourceClean src → Source.validate src = .ok ()) ∧
    (Source.validate (.Server []) = .ok () ∧
      Source.validate (.Client [] none []) = .ok () ∧
      Source.validate (.Client [] (some []) []) = .ok ()) ∧
    (∀ src : Source, sourceClean src → Source.raw_len src + 12 ≤ 4294967295 →
      ∃ m, Message.assemble (some src) (.Numeric 1) [] false = .ok m) ∧
    (∃ m, Message.assemble (some (.Server [])) (.Numeric 1) [] false = .ok m ∧
      Message.get_raw m = [58, 32, 48, 48, 49, 13, 10]) := by
  have hval : ∀ src : Source, sourceClean src → Source.validate src = .ok () := by
    intro src hc
    cases src with
    | Server name =>
      simp only [sourceClean] at hc
      simp [Source.validate, hc]
    | Client nick user host =>
      simp only [sourceClean] at hc
      obtain ⟨h1, h2, h3⟩ := hc
      simp [Source.validate, h1, h2, h3]
  refine ⟨hval, ⟨by rfl, by rfl, by rfl⟩, ?_, ⟨_, rfl, rfl⟩⟩
  intro src hc hlen
  obtain ⟨m, hm, _⟩ := @assemble_ok_rich (some src) (.Numeric 1) [] false [48, 48, 49]
    (by simp only [validateSourceOpt]; exact hval src hc)
    (by rfl)
    trivial
    (by intro h; exact absurd h (by simp))
    (by
      rw [show (if (false : Bool) = true then (3 : Nat) else 2) = 2 from rfl,
        show (Option.map Source.raw_len (some src)).getD 0 = src.raw_len from rfl]
      simp only [List.map_nil, List.sum_nil, List.length_nil, List.length_cons]
      omega)
  exact ⟨m, hm⟩

/-- C5: `parse_tags` on the slice `"@a b"` does return the tag region `"a"`,
but the "rest of line" it returns is the ENTIRE original slice (the source
passes `line` instead of `&line[split..]` to `skip_leading_space`, and the
leading `@` is not a space), not the text after the separating space; a slice
not beginning with `@` is passed through unchanged with no tags. -/
theorem C5_parse_tags_remainder_bug :
    parse_tags [64, 97, 32, 98] = some (some [97], [64, 97, 32, 98]) ∧
    parse_tags [98, 32, 99] = some (none, [98, 32, 99]) :=
  ⟨rfl, rfl⟩

/-- C2: the input line `"000"` (no CR, no LF, non-empty) drives
`Message::parse` into a panic rather than a parse failure: the command token
parses as `Numeric(0)`, the re-assembly rejects it ("Invalid command number"),
and `parse` unwraps that `Err`. -/
theorem C2_parse_panics_on_000 :
    Message.parse [48, 48, 48] = .panicked "called Result::unwrap on an Err value" ∧
    Command.parse [48, 48, 48] = some (.Numeric 0, []) ∧
    Command.bufferize (.Numeric 0) = .error "Invalid command number" :=
  ⟨rfl, rfl, rfl⟩

/-- C10 witness. -/
theorem C10_source_empty_ok_witness :
    Source.validate (.Client [] (some []) []) = .ok () ∧
    ∃ m, Message.assemble (some (.Client [] (some []) [])) (.Numeric 1) [] false = .ok m :=
  ⟨C10_source_empty_ok.1 (.Client [] (some []) []) (by exact ⟨rfl, rfl, rfl⟩),
   C10_source_empty_ok.2.2.1 (.Client [] (some []) []) (by exact ⟨rfl, rfl, rfl⟩)
     (by decide)⟩

/-! ## Forward lemmas about the scanner primitives on well-formed wire bytes -/

lemma clean_field_mem {xs : List Nat} (h : xs.any is_nulcrlfspaceatbang = false) :
    ∀ x ∈ xs, x ≠ 0 ∧ x ≠ 13 ∧ x ≠ 10 ∧ x ≠ 32 ∧ x ≠ 64 ∧ x ≠ 33 := by
  intro x hx
  have hp := List.any_eq_false.mp h x hx
  simp only [is_nulcrlfspaceatbang, Bool.or_eq_true, beq_iff_eq, not_or] at hp
  tauto

lemma clean_cmd_mem {xs : List Nat} (h : xs.any is_nulcrlfspace = false) :
    ∀ x ∈ xs, x ≠ 0 ∧ x ≠ 13 ∧ x ≠ 10 ∧ x ≠ 32 := by
  intro x hx
  have hp := List.any_eq_false.mp h x hx
  simp only [is_nulcrlfspace, Bool.or_eq_true, beq_iff_eq, not_or] at hp
  tauto

lemma find_idx_no_space (xs : List Nat) (h : ∀ x ∈ xs, x ≠ 13 ∧ x ≠ 0 ∧ x ≠ 32) :
    find_idx_of_space_or_end xs = some xs.length := by
  induction xs with
  | nil => rfl
  | cons x r ih =>
    have hx := h x (by simp)
    simp only [find_idx_of_space_or_end]
    rw [if_neg (by simp [hx.1, hx.2.1]), if_neg (by simp [hx.2.2]),
      ih (fun y hy => h y (by simp [hy]))]
    rfl

lemma find_idx_app_space (xs ys : List Nat) (h : ∀ x ∈ xs, x ≠ 13 ∧ x ≠ 0 ∧ x ≠ 32) :
    find_idx_of_space_or_end (xs ++ 32 :: ys) = some xs.length := by
  induction xs with
  | nil => rfl
  | cons x r ih =>
    have hx := h x (by simp)
    simp only [List.cons_append, find_idx_of_space_or_end]
    rw [if_neg (by simp [hx.1, hx.2.1]), if_neg (by simp [hx.2.2]),
      show r.append (32 :: ys) = r ++ 32 :: ys from rfl,
      ih (fun y hy => h y (by simp [hy]))]
    rfl

lemma skip_no_space_head (l : List Nat)
    (h : l = [] ∨ (l.headD 0 ≠ 13 ∧ l.headD 0 ≠ 0 ∧ l.headD 0 ≠ 32)) :
    skip_leading_space l = some l := by
  cases l with
  | nil => rfl
  | cons x r =>
    rcases h with h | h
    · exact absurd h (by simp)
    · simp only [List.headD_cons] at h
      simp only [skip_leading_space]
      rw [if_neg (by simp [h.1, h.2.1]), if_neg (by simp [h.2.2])]

lemma skip_space_cons (l : List Nat) : skip_leading_space (32 :: l) = skip_leading_space l := by
  simp [skip_leading_space]

lemma psnn_all (xs : List Nat)
    (h : ∀ x ∈ xs, x ≠ 13 ∧ x ≠ 0 ∧ x ≠ 64 ∧ x ≠ 33 ∧ x ≠ 32) :
    parse_source_name_or_nick xs = some (xs, 32, []) := by
  induction xs with
  | nil => rfl
  | cons x r ih =>
    have hx := h x (by simp)
    simp only [parse_source_name_or_nick]
    rw [if_neg (by simp [hx.1, hx.2.1]), if_neg (by simp [hx.2.2.1, hx.2.2.2.1]),
      if_neg (by simp [hx.2.2.2.2]), ih (fun y hy => h y (by simp [hy]))]

lemma psnn_delim (xs : List Nat) (d : Nat) (ys : List Nat)
    (h : ∀ x ∈ xs, x ≠ 13 ∧ x ≠ 0 ∧ x ≠ 64 ∧ x ≠ 33 ∧ x ≠ 32)
    (hd : d = 64 ∨ d = 33) :
    parse_source_name_or_nick (xs ++ d :: ys) = some (xs, d, ys) := by
  induction xs with
  | nil =>
    simp only [List.nil_append, parse_source_name_or_nick]
    rw [if_neg (by rcases hd with h | h <;> simp [h]),
      if_pos (by rcases hd with h | h <;> simp [h])]
  | cons x r ih =>
    have hx := h x (by simp)
    simp only [List.cons_append, parse_source_name_or_nick]
    rw [if_neg (by simp [hx.1, hx.2.1]), if_neg (by simp [hx.2.2.1, hx.2.2.2.1]),
      if_neg (by simp [hx.2.2.2.2]),
      show r.append (d :: ys) = r ++ d :: ys from rfl,
      ih (fun y hy => h y (by simp [hy]))]

lemma psu_delim (xs : List Nat) (ys : List Nat)
    (h : ∀ x ∈ xs, x ≠ 13 ∧ x ≠ 0 ∧ x ≠ 64 ∧ x ≠ 33 ∧ x ≠ 32) :
    parse_source_user (xs ++ 64 :: ys) = some (xs, 64, ys) := by
  induction xs with
  | nil =>
    simp only [List.nil_append, parse_source_user]
    rw [if_neg (by simp), if_pos (by simp)]
  | cons x r ih =>
    have hx := h x (by simp)
    simp only [List.cons_append, parse_source_user]
    rw [if_neg (by simp [hx.1, hx.2.1, hx.2.2.2.1]), if_neg (by simp [hx.2.2.1]),
      if_neg (by simp [hx.2.2.2.2]),
      show r.append (64 :: ys) = r ++ 64 :: ys from rfl,
      ih (fun y hy => h y (by simp [hy]))]

lemma psh_all (xs : List Nat)
    (h : ∀ x ∈ xs, x ≠ 13 ∧ x ≠ 0 ∧ x ≠ 64 ∧ x ≠ 33 ∧ x ≠ 32) :
    parse_source_host xs = some (xs, []) := by
  have h1 : (xs.any fun x => x == 13 || x == 0 || x == 33 || x == 64) = false := by
    rw [List.any_eq_false]
    intro x hx
    have hm := h x hx
    simp [hm.1, hm.2.1, hm.2.2.1, hm.2.2.2.1]
  have h2 : (xs.any fun x => x == 32) = false := by
    rw [List.any_eq_false]
    intro x hx
    have hm := h x hx
    simp [hm.2.2.2.2]
  simp [parse_source_host, h1, h2]

lemma parse_digit_digit {d : Nat} (h1 : 48 ≤ d) (h2 : d ≤ 57) :
    parse_digit d = some (d - 48) := by
  rw [parse_digit, if_pos ⟨h1, h2⟩]

lemma parse_digit_some {d v : Nat} (h : parse_digit d = some v) : 48 ≤ d ∧ d ≤ 57 := by
  simp only [parse_digit] at h
  split at h
  · next hc => exact hc
  · exact absurd h (by simp)

lemma command_parse_textual_fwd (cb tail l : List Nat)
    (hne : cb ≠ [])
    (hclean : ∀ x ∈ cb, x ≠ 13 ∧ x ≠ 0 ∧ x ≠ 32)
    (h3 : isThreeDigits cb = false)
    (htail : tail = [] ∨ ∃ ys, tail = 32 :: ys)
    (hskip : skip_leading_space tail = some l) :
    Command.parse (cb ++ tail) = some (.Textual cb, l) := by
  have hfind : find_idx_of_space_or_end (cb ++ tail) = some cb.length := by
    rcases htail with h | ⟨ys, h⟩
    · subst h; rw [List.append_nil]; exact find_idx_no_space cb hclean
    · subst h; exact find_idx_app_space cb ys hclean
  have hdrop : (cb ++ tail).drop cb.length = tail := List.drop_left cb tail
  have htake : (cb ++ tail).take cb.length = cb := List.take_left cb tail
  simp only [Command.parse]
  rw [if_neg (by cases cb with
    | nil => exact absurd rfl hne
    | cons a r => simp)]
  rw [hfind]
  simp only [Option.bind_eq_bind, Option.some_bind, hdrop, hskip, htake]
  match cb, hne with
  | [a], _ => rfl
  | [a, b], _ => rfl
  | a :: b :: c :: d :: r5, _ => rfl
  | [a, b, c], _ =>
    cases hpa : parse_digit a with
    | none => simp [hpa]
    | some va =>
      cases hpb : parse_digit b with
      | none => simp [hpa, hpb]
      | some vb =>
        cases hpc : parse_digit c with
        | none => simp [hpa, hpb, hpc]
        | some vc =>
          have ha := parse_digit_some hpa
          have hb := parse_digit_some hpb
          have hc := parse_digit_some hpc
          have htrue : isThreeDigits [a, b, c] = true := by
            simp [isThreeDigits, ha.1, ha.2, hb.1, hb.2, hc.1, hc.2]
          rw [htrue] at h3
          exact absurd h3 (by simp)

lemma command_parse_numeric_fwd (x : Nat) (h1 : 1 ≤ x) (h2 : x ≤ 999)
    (tail l : List Nat)
    (htail : tail = [] ∨ ∃ ys, tail = 32 :: ys)
    (hskip : skip_leading_space tail = some l) :
    Command.parse (fmt03 x ++ tail) = some (.Numeric x, l) := by
  rw [fmt03_digits x h1 h2]
  have hclean : ∀ y ∈ [48 + x / 100, 48 + x / 10 % 10, 48 + x % 10],
      y ≠ 13 ∧ y ≠ 0 ∧ y ≠ 32 := by
    intro y hy
    simp only [List.mem_cons, List.mem_singleton, List.not_mem_nil] at hy
    rcases hy with h | h | h | h <;> first | omega | simp at h
  have hfind : find_idx_of_space_or_end
      ([48 + x / 100, 48 + x / 10 % 10, 48 + x % 10] ++ tail) = some 3 := by
    rcases htail with h | ⟨ys, h⟩
    · subst h
      rw [List.append_nil]
      exact find_idx_no_space _ hclean
    · subst h
      exact find_idx_app_space _ ys hclean
  simp only [Command.parse]
  rw [if_neg (by simp)]
  rw [hfind]
  simp only [Option.bind_eq_bind, Option.some_bind]
  rw [show ([48 + x / 100, 48 + x / 10 % 10, 48 + x % 10] ++ tail).drop 3 = tail from rfl,
    hskip,
    show ([48 + x / 100, 48 + x / 10 % 10, 48 + x % 10] ++ tail).take 3
      = [48 + x / 100, 48 + x / 10 % 10, 48 + x % 10] from rfl]
  simp only [Option.some_bind]
  rw [parse_digit_digit (by omega) (by omega), parse_digit_digit (by omega) (by omega),
    parse_digit_digit (by omega) (by omega)]
  simp only [show (48 + x / 100 - 48) * 100 + (48 + x / 10 % 10 - 48) * 10 + (48 + x % 10 - 48)
      = x from by omega]

lemma validate_server_inv {name : List Nat}
    (h : Source.validate (.Server name) = .ok ()) :
    name.any is_nulcrlfspaceatbang = false := by
  cases hany : name.any is_nulcrlfspaceatbang with
  | false => rfl
  | true =>
    simp only [Source.validate, hany] at h
    exact absurd h (by simp)

lemma validate_client_inv {nick : List Nat} {user : Option (List Nat)} {host : List Nat}
    (h : Source.validate (.Client nick user host) = .ok ()) :
    nick.any is_nulcrlfspaceatbang = false ∧
    (user.getD []).any is_nulcrlfspaceatbang = false ∧
    host.any is_nulcrlfspaceatbang = false := by
  cases h1 : nick.any is_nulcrlfspaceatbang with
  | true =>
    simp only [Source.validate, h1] at h
    exact absurd h (by simp)
  | false =>
  cases h2 : (user.getD []).any is_nulcrlfspaceatbang with
  | true =>
    simp only [Source.validate, h1, h2] at h
    exact absurd h (by simp)
  | false =>
  cases h3 : host.any is_nulcrlfspaceatbang with
  | true =>
    simp only [Source.validate, h1, h2, h3] at h
    exact absurd h (by simp)
  | false => exact ⟨rfl, rfl, rfl⟩

lemma source_parse_none_fwd (line : List Nat)
    (h : line.isEmpty = true ∨ line.headD 0 ≠ 58) :
    Source.parse line = some (none, line) := by
  simp only [Source.parse]
  rw [if_pos (by
    rcases h with h | h
    · simp [h]
    · simp only [Bool.or_eq_true, decide_eq_true_eq]
      right
      simpa using h)]

/-- Parsing back the bytes `Source::inter` would write, followed by a space
and any tail that does not begin with space/CR/NUL, recovers the source. -/
lemma source_parse_fwd (src : Source) (hv : Source.validate src = .ok ())
    (tail : List Nat)
    (htail : tail = [] ∨ (tail.headD 0 ≠ 13 ∧ tail.headD 0 ≠ 0 ∧ tail.headD 0 ≠ 32)) :
    Source.parse (sourceBytes src ++ tail) = some (some src, tail) := by
  cases src with
  | Server name =>
    have hnc := clean_field_mem (validate_server_inv hv)
    have hline : sourceBytes (.Server name) ++ tail = (58 :: name) ++ 32 :: tail := by
      simp [sourceBytes]
    rw [hline]
    simp only [Source.parse]
    rw [if_neg (by simp)]
    rw [find_idx_app_space (58 :: name) tail (by
      intro x hx
      rcases List.mem_cons.mp hx with h | h
      · subst h; refine ⟨by omega, by omega, by omega⟩
      · have hm := hnc x h
        exact ⟨hm.2.1, hm.1, hm.2.2.2.1⟩)]
    simp only [Option.bind_eq_bind, Option.some_bind]
    rw [List.drop_left, skip_space_cons, skip_no_space_head tail htail]
    simp only [Option.some_bind]
    rw [List.take_left]
    rw [show (58 :: name).drop 1 = name from rfl]
    rw [psnn_all name (by
      intro x hx
      have hm := hnc x hx
      exact ⟨hm.2.1, hm.1, hm.2.2.2.2.1, hm.2.2.2.2.2, hm.2.2.2.1⟩)]
    simp only [Option.some_bind]
    rfl
  | Client nick user host =>
    obtain ⟨hn, hu, hh⟩ := validate_client_inv hv
    have hncn := clean_field_mem hn
    have hnch := clean_field_mem hh
    cases user with
    | none =>
      have hline : sourceBytes (.Client nick none host) ++ tail
          = (58 :: (nick ++ 64 :: host)) ++ 32 :: tail := by
        simp [sourceBytes]
      rw [hline]
      simp only [Source.parse]
      rw [if_neg (by simp)]
      rw [find_idx_app_space (58 :: (nick ++ 64 :: host)) tail (by
        intro x hx
        rcases List.mem_cons.mp hx with h | h
        · subst h; refine ⟨by omega, by omega, by omega⟩
        rcases List.mem_append.mp h with h | h
        · have hm := hncn x h
          exact ⟨hm.2.1, hm.1, hm.2.2.2.1⟩
        rcases List.mem_cons.mp h with h | h
        · subst h; refine ⟨by omega, by omega, by omega⟩
        · have hm := hnch x h
          exact ⟨hm.2.1, hm.1, hm.2.2.2.1⟩)]
      simp only [Option.bind_eq_bind, Option.some_bind]
      rw [List.drop_left, skip_space_cons, skip_no_space_head tail htail]
      simp only [Option.some_bind]
      rw [List.take_left]
      rw [show (58 :: (nick ++ 64 :: host)).drop 1 = nick ++ 64 :: host from rfl]
      rw [psnn_delim nick 64 host (by
        intro x hx
        have hm := hncn x hx
        exact ⟨hm.2.1, hm.1, hm.2.2.2.2.1, hm.2.2.2.2.2, hm.2.2.2.1⟩) (Or.inl rfl)]
      have hhost := psh_all host (by
        intro x hx
        have hm := hnch x hx
        exact ⟨hm.2.1, hm.1, hm.2.2.2.2.1, hm.2.2.2.2.2, hm.2.2.2.1⟩)
      simp [hhost]
    | some u =>
      have hncu := clean_field_mem (by simpa using hu)
      have hline : sourceBytes (.Client nick (some u) host) ++ tail
          = (58 :: (nick ++ 33 :: (u ++ 64 :: host))) ++ 32 :: tail := by
        simp [sourceBytes]
      rw [hline]
      simp only [Source.parse]
      rw [if_neg (by simp)]
      rw [find_idx_app_space (58 :: (nick ++ 33 :: (u ++ 64 :: host))) tail (by
        intro x hx
        rcases List.mem_cons.mp hx with h | h
        · subst h; refine ⟨by omega, by omega, by omega⟩
        rcases List.mem_append.mp h with h | h
        · have hm := hncn x h
          exact ⟨hm.2.1, hm.1, hm.2.2.2.1⟩
        rcases List.mem_cons.mp h with h | h
        · subst h; refine ⟨by omega, by omega, by omega⟩
        rcases List.mem_append.mp h with h | h
        · have hm := hncu x h
          exact ⟨hm.2.1, hm.1, hm.2.2.2.1⟩
        rcases List.mem_cons.mp h with h | h
        · subst h; refine ⟨by omega, by omega, by omega⟩
        · have hm := hnch x h
          exact ⟨hm.2.1, hm.1, hm.2.2.2.1⟩)]
      simp only [Option.bind_eq_bind, Option.some_bind]
      rw [List.drop_left, skip_space_cons, skip_no_space_head tail htail]
      simp only [Option.some_bind]
      rw [List.take_left]
      rw [show (58 :: (nick ++ 33 :: (u ++ 64 :: host))).drop 1
          = nick ++ 33 :: (u ++ 64 :: host) from rfl]
      rw [psnn_delim nick 33 (u ++ 64 :: host) (by
        intro x hx
        have hm := hncn x hx
        exact ⟨hm.2.1, hm.1, hm.2.2.2.2.1, hm.2.2.2.2.2, hm.2.2.2.1⟩) (Or.inr rfl)]
      have huser := psu_delim u host (by
        intro x hx
        have hm := hncu x hx
        exact ⟨hm.2.1, hm.1, hm.2.2.2.2.1, hm.2.2.2.2.2, hm.2.2.2.1⟩)
      have hhost := psh_all host (by
        intro x hx
        have hm := hnch x hx
        exact ⟨hm.2.1, hm.1, hm.2.2.2.2.1, hm.2.2.2.2.2, hm.2.2.2.1⟩)
      simp [huser, hhost]

lemma validate_param_inv {p : List Nat} (h : validate_param p = .ok ()) :
    p ≠ [] ∧ p.any is_nulcrlfspace = false ∧ p.headD 0 ≠ 58 := by
  simp only [validate_param] at h
  split at h
  · exact absurd h (by simp)
  · next h1 =>
    split at h
    · exact absurd h (by simp)
    · next h2 =>
      split at h
      · exact absurd h (by simp)
      · next h3 =>
        refine ⟨by simpa using h1, by simpa using h2, by simpa using h3⟩

lemma validate_trailing_inv {p : List Nat} (h : validate_trailing_param p = .ok ()) :
    p.any is_nulcrlf = false := by
  simp only [validate_trailing_param] at h
  split at h
  · exact absurd h (by simp)
  · next h1 => simpa using h1

lemma clean_trail_mem {xs : List Nat} (h : xs.any is_nulcrlf = false) :
    ∀ x ∈ xs, x ≠ 0 ∧ x ≠ 13 ∧ x ≠ 10 := by
  intro x hx
  have hp := List.any_eq_false.mp h x hx
  simp only [is_nulcrlf, Bool.or_eq_true, beq_iff_eq, not_or] at hp
  tauto

lemma paramsBytes_shape (q : List Nat) (rest : List (List Nat)) (t : Bool) :
    ∃ z, paramsBytes (q :: rest) t = 32 :: z := by
  cases rest with
  | nil =>
    cases t with
    | true => exact ⟨58 :: q, rfl⟩
    | false => exact ⟨q, rfl⟩
  | cons q2 rest2 => exact ⟨q ++ paramsBytes (q2 :: rest2) t, rfl⟩

lemma paramsBytes_no_crnul (ps : List (List Nat)) (t : Bool) (hv : validPs ps t) :
    ∀ x ∈ paramsBytes ps t, x ≠ 13 ∧ x ≠ 0 := by
  induction ps with
  | nil => intro x hx; simp [paramsBytes] at hx
  | cons p rest ih =>
    cases rest with
    | nil =>
      cases t with
      | true =>
        have hv' : validate_trailing_param p = .ok () := by simpa [validPs] using hv
        have hcl := clean_trail_mem (validate_trailing_inv hv')
        intro x hx
        rw [show paramsBytes [p] true = 32 :: 58 :: p from rfl] at hx
        rcases List.mem_cons.mp hx with h | h
        · subst h; exact ⟨by omega, by omega⟩
        rcases List.mem_cons.mp h with h | h
        · subst h; exact ⟨by omega, by omega⟩
        · have hm := hcl x h
          exact ⟨hm.2.1, hm.1⟩
      | false =>
        have hv' : validate_param p = .ok () := by simpa [validPs] using hv
        have hcl := clean_cmd_mem (validate_param_inv hv').2.1
        intro x hx
        rw [show paramsBytes [p] false = 32 :: p from rfl] at hx
        rcases List.mem_cons.mp hx with h | h
        · subst h; exact ⟨by omega, by omega⟩
        · have hm := hcl x h
          exact ⟨hm.2.1, hm.1⟩
    | cons q rest' =>
      obtain ⟨hvp, hvr⟩ : validate_param p = .ok () ∧ validPs (q :: rest') t := hv
      have hcl := clean_cmd_mem (validate_param_inv hvp).2.1
      intro x hx
      rw [show paramsBytes (p :: q :: rest') t
          = 32 :: (p ++ paramsBytes (q :: rest') t) from rfl] at hx
      rcases List.mem_cons.mp hx with h | h
      · subst h; exact ⟨by omega, by omega⟩
      rcases List.mem_append.mp h with h | h
      · have hm := hcl x h
        exact ⟨hm.2.1, hm.1⟩
      · exact ih hvr x h

/-- Parsing back the parameter bytes the assembly loop wrote (after the
leading-space skip that `Command::parse` already performed) recovers exactly
the original parameter list and trailer flag. -/
lemma pp_round (ps : List (List Nat)) (t : Bool) :
    validPs ps t → (t = true → ps ≠ []) →
    ∃ l, skip_leading_space (paramsBytes ps t) = some l ∧
      l.length ≤ (paramsBytes ps t).length ∧
      ∀ fuel, l.length ≤ fuel → parseParamsGo fuel l = some (ps, t) := by
  induction ps with
  | nil =>
    intro hv ht
    have htf : t = false := by
      cases t with
      | false => rfl
      | true => exact absurd rfl (ht rfl)
    subst htf
    exact ⟨[], rfl, by simp [paramsBytes], fun fuel _ => by cases fuel <;> rfl⟩
  | cons p rest ih =>
    intro hv ht
    cases rest with
    | nil =>
      cases t with
      | true =>
        refine ⟨58 :: p, ?_, by simp [paramsBytes], ?_⟩
        · rw [show paramsBytes [p] true = 32 :: 58 :: p from rfl, skip_space_cons]
          exact skip_no_space_head _ (Or.inr (by simp))
        · intro fuel hf
          cases fuel <;> simp [parseParamsGo]
      | false =>
        have hv' : validate_param p = .ok () := by simpa [validPs] using hv
        obtain ⟨hne, hcl, hcol⟩ := validate_param_inv hv'
        have hclm := clean_cmd_mem hcl
        cases p with
        | nil => exact absurd rfl hne
        | cons x r =>
        have hx := hclm x (by simp)
        refine ⟨x :: r, ?_, by simp [paramsBytes], ?_⟩
        · rw [show paramsBytes [x :: r] false = 32 :: x :: r from rfl, skip_space_cons]
          exact skip_no_space_head _ (Or.inr (by
            simp only [List.headD_cons]
            exact ⟨hx.2.1, hx.1, hx.2.2.2⟩))
        · intro fuel hf
          cases fuel with
          | zero => simp at hf
          | succ f =>
            simp only [parseParamsGo]
            rw [if_neg (by simpa using by simpa using hcol)]
            rw [show find_idx_of_space_or_end (x :: r) = some (x :: r).length from
              find_idx_no_space (x :: r) (fun y hy =>
                have hm := hclm y hy
                ⟨hm.2.1, hm.1, hm.2.2.2⟩)]
            simp [parseParamsGo, skip_leading_space, List.drop_length, List.take_length]
    | cons q rest' =>
      obtain ⟨hvp, hvr⟩ : validate_param p = .ok () ∧ validPs (q :: rest') t := hv
      obtain ⟨hne, hcl, hcol⟩ := validate_param_inv hvp
      have hclm := clean_cmd_mem hcl
      obtain ⟨l2, hskip2, hlen2, hgo2⟩ := ih hvr (fun _ => by simp)
      obtain ⟨z, hz⟩ := paramsBytes_shape q rest' t
      cases p with
      | nil => exact absurd rfl hne
      | cons x r =>
      have hx := hclm x (by simp)
      refine ⟨(x :: r) ++ paramsBytes (q :: rest') t, ?_, by simp [paramsBytes], ?_⟩
      · rw [show paramsBytes ((x :: r) :: q :: rest') t
            = 32 :: ((x :: r) ++ paramsBytes (q :: rest') t) from rfl, skip_space_cons]
        exact skip_no_space_head _ (Or.inr (by
          simp only [List.cons_append, List.headD_cons]
          exact ⟨hx.2.1, hx.1, hx.2.2.2⟩))
      · intro fuel hf
        cases fuel with
        | zero => simp at hf
        | succ f =>
          have hz2 : (x :: r) ++ paramsBytes (q :: rest') t = x :: (r ++ 32 :: z) := by
            rw [hz]
            rfl
          rw [hz2]
          simp only [parseParamsGo]
          rw [if_neg (by simpa using by simpa using hcol)]
          have hfind : find_idx_of_space_or_end (x :: (r ++ 32 :: z))
              = some (x :: r).length := by
            rw [show x :: (r ++ 32 :: z) = (x :: r) ++ 32 :: z from rfl]
            exact find_idx_app_space (x :: r) z (fun y hy =>
              have hm := hclm y hy
              ⟨hm.2.1, hm.1, hm.2.2.2⟩)
          have hdrop : List.drop (x :: r).length (x :: (r ++ 32 :: z)) = 32 :: z := by
            rw [show x :: (r ++ 32 :: z) = (x :: r) ++ 32 :: z from rfl]
            exact List.drop_left _ _
          have htake : List.take (x :: r).length (x :: (r ++ 32 :: z)) = x :: r := by
            rw [show x :: (r ++ 32 :: z) = (x :: r) ++ 32 :: z from rfl]
            exact List.take_left _ _
          rw [hz] at hskip2
          have hgo : parseParamsGo f l2 = some (q :: rest', t) := by
            apply hgo2
            have h1 : l2.length ≤ (32 :: z).length := by
              have h3 := hlen2
              rw [hz] at h3
              exact h3
            have h2 : ((x :: r) ++ paramsBytes (q :: rest') t).length ≤ f + 1 := hf
            rw [hz] at h2
            simp only [List.length_append, List.length_cons] at h1 h2 ⊢
            omega
          simp [hfind, hdrop, hskip2, hgo, htake]

lemma find_idx_isSome (line : List Nat) (h : ∀ x ∈ line, x ≠ 13 ∧ x ≠ 0) :
    ∃ k, find_idx_of_space_or_end line = some k := by
  induction line with
  | nil => exact ⟨0, rfl⟩
  | cons x r ih =>
    have hx := h x (by simp)
    simp only [find_idx_of_space_or_end]
    rw [if_neg (by simp [hx.1, hx.2])]
    by_cases hsp : x = 32
    · rw [if_pos (by simp [hsp])]
      exact ⟨0, rfl⟩
    · rw [if_neg (by simp [hsp])]
      obtain ⟨k, hk⟩ := ih (fun y hy => h y (by simp [hy]))
      exact ⟨k + 1, by rw [hk]; rfl⟩

/-- On a line free of CR and NUL whose first byte is not a space (whether or
not it starts with `@`), `parse_tags` always hands back the WHOLE line as the
rest-of-line. -/
lemma parse_tags_keeps (line : List Nat) (hnc : ∀ x ∈ line, x ≠ 13 ∧ x ≠ 0)
    (hh : line.headD 0 ≠ 32) :
    ∃ tg, parse_tags line = some (tg, line) := by
  by_cases h64 : line.headD 0 = 64
  · cases line with
    | nil => exact ⟨none, rfl⟩
    | cons x r =>
      simp only [List.headD_cons] at h64 hh
      subst h64
      simp only [parse_tags]
      rw [if_neg (by simp)]
      obtain ⟨k, hk⟩ := find_idx_isSome (64 :: r) hnc
      rw [hk]
      simp only [Option.bind_eq_bind, Option.some_bind]
      rw [skip_no_space_head (64 :: r) (Or.inr (by simp))]
      exact ⟨_, rfl⟩
  · cases line with
    | nil => exact ⟨none, rfl⟩
    | cons x r =>
      refine ⟨none, ?_⟩
      simp only [parse_tags]
      rw [if_pos (by
        simp only [List.headD_cons] at h64
        simp [h64])]

lemma headD_append_ne (a b : List Nat) (h : a ≠ []) :
    (a ++ b).headD 0 = a.headD 0 := by
  cases a with
  | nil => exact absurd rfl h
  | cons x r => rfl

lemma sourceBytes_no_crnul (src : Source) (hv : src.validate = .ok ()) :
    ∀ x ∈ sourceBytes src, x ≠ 13 ∧ x ≠ 0 := by
  cases src with
  | Server name =>
    have hnc := clean_field_mem (validate_server_inv hv)
    intro x hx
    rw [show sourceBytes (.Server name) = 58 :: (name ++ [32]) from rfl] at hx
    rcases List.mem_cons.mp hx with h | h
    · subst h; exact ⟨by omega, by omega⟩
    rcases List.mem_append.mp h with h | h
    · have hm := hnc x h
      exact ⟨hm.2.1, hm.1⟩
    · simp only [List.mem_singleton] at h
      subst h; exact ⟨by omega, by omega⟩
  | Client nick user host =>
    obtain ⟨hn, hu, hh⟩ := validate_client_inv hv
    have hncn := clean_field_mem hn
    have hnch := clean_field_mem hh
    cases user with
    | none =>
      intro x hx
      rw [show sourceBytes (.Client nick none host)
          = 58 :: (nick ++ 64 :: (host ++ [32])) from rfl] at hx
      rcases List.mem_cons.mp hx with h | h
      · subst h; exact ⟨by omega, by omega⟩
      rcases List.mem_append.mp h with h | h
      · have hm := hncn x h
        exact ⟨hm.2.1, hm.1⟩
      rcases List.mem_cons.mp h with h | h
      · subst h; exact ⟨by omega, by omega⟩
      rcases List.mem_append.mp h with h | h
      · have hm := hnch x h
        exact ⟨hm.2.1, hm.1⟩
      · simp only [List.mem_singleton] at h
        subst h; exact ⟨by omega, by omega⟩
    | some u =>
      have hncu := clean_field_mem (by simpa using hu)
      intro x hx
      rw [show sourceBytes (.Client nick (some u) host)
          = 58 :: (nick ++ 33 :: (u ++ 64 :: (host ++ [32]))) from rfl] at hx
      rcases List.mem_cons.mp hx with h | h
      · subst h; exact ⟨by omega, by omega⟩
      rcases List.mem_append.mp h with h | h
      · have hm := hncn x h
        exact ⟨hm.2.1, hm.1⟩
      rcases List.mem_cons.mp h with h | h
      · subst h; exact ⟨by omega, by omega⟩
      rcases List.mem_append.mp h with h | h
      · have hm := hncu x h
        exact ⟨hm.2.1, hm.1⟩
      rcases List.mem_cons.mp h with h | h
      · subst h; exact ⟨by omega, by omega⟩
      rcases List.mem_append.mp h with h | h
      · have hm := hnch x h
        exact ⟨hm.2.1, hm.1⟩
      · simp only [List.mem_singleton] at h
        subst h; exact ⟨by omega, by omega⟩

lemma map_upcase_clean {b : List Nat} (h : b.any is_nulcrlfspace = false) :
    (b.map upcase).any is_nulcrlfspace = false := by
  rw [List.any_eq_false] at h ⊢
  intro y hy
  obtain ⟨x, hx, hxy⟩ := List.mem_map.mp hy
  subst hxy
  have hfx : is_nulcrlfspace x = false := by
    have := h x hx
    simpa using this
  simp [upcase_not_nulcrlfspace hfx]

lemma map_upcase_idem (b : List Nat) : (b.map upcase).map upcase = b.map upcase := by
  rw [List.map_map]
  exact List.map_congr_left (fun x _ => upcase_idem x)

lemma bufferize_numeric_inv {x : Nat} {cb : List Nat}
    (h : Command.bufferize (.Numeric x) = .ok cb) :
    1 ≤ x ∧ x ≤ 999 ∧ cb = fmt03 x := by
  simp only [Command.bufferize] at h
  split at h
  · exact absurd h (by simp)
  · next hc =>
    simp only [Bool.or_eq_true, beq_iff_eq, decide_eq_true_eq, not_or] at hc
    injection h with hh
    exact ⟨by omega, by omega, hh.symm⟩

lemma bufferize_textual_inv {b cb : List Nat}
    (h : Command.bufferize (.Textual b) = .ok cb) :
    b.any is_nulcrlfspace = false ∧ cb = b.map upcase := by
  simp only [Command.bufferize] at h
  split at h
  · exact absurd h (by simp)
  · next hc =>
    injection h with hh
    exact ⟨by simpa using hc, hh.symm⟩

/-- Shared spine of the parse-after-assemble round trip: given the three
framed segments (source bytes, command buffer, parameter bytes) together with
the cleanliness facts that make every scanner succeed, the full
`Message::parse` pipeline succeeds on their concatenation and the message it
re-assembles carries exactly the same data. -/
lemma roundtrip_core (s : Option Source) (ps : List (List Nat)) (t : Bool)
    (cb : List Nat) (c2 : Command) (l : List Nat)
    (hsv : validateSourceOpt s = .ok ())
    (hvalid : validPs ps t) (ht : t = true → ps ≠ [])
    (hskipl : skip_leading_space (paramsBytes ps t) = some l)
    (hgol : ∀ fuel, l.length ≤ fuel → parseParamsGo fuel l = some (ps, t))
    (hcbne : cb ≠ [])
    (hcbclean : ∀ y ∈ cb, y ≠ 13 ∧ y ≠ 0 ∧ y ≠ 32)
    (hhead58 : s = none → cb.headD 0 ≠ 58)
    (hcp : Command.parse (cb ++ paramsBytes ps t) = some (c2, l))
    (hcb2 : c2.bufferize = .ok cb)
    (hbound : ((s.map Source.raw_len).getD 0 + cb.length
        + (ps.map (fun x => x.length + 1)).sum + (if t then 3 else 2) + 7) / 8 * 8
        + ps.length * 8 ≤ 4294967295) :
    ∃ m2, Message.parse (sourceBytesOpt s ++ cb ++ paramsBytes ps t) = .ok m2 ∧
      m2.has_trailer = t ∧ m2.get_source = s ∧ m2.get_command = cmdView c2 cb ∧
      m2.get_param_count = ps.length ∧
      (∀ n, m2.get_nth_param n = ps.get? n) := by
  have hWnc : ∀ x ∈ sourceBytesOpt s ++ cb ++ paramsBytes ps t, x ≠ 13 ∧ x ≠ 0 := by
    intro x hx
    rcases List.mem_append.mp hx with hx | hx
    · rcases List.mem_append.mp hx with hx | hx
      · cases s with
        | none => simp [sourceBytesOpt] at hx
        | some src =>
          exact sourceBytes_no_crnul src (by simpa [validateSourceOpt] using hsv) x hx
      · have hm := hcbclean x hx
        exact ⟨hm.1, hm.2.1⟩
    · exact paramsBytes_no_crnul ps t hvalid x hx
  have hWhead : (sourceBytesOpt s ++ cb ++ paramsBytes ps t).headD 0 ≠ 32 := by
    cases s with
    | none =>
      rw [show sourceBytesOpt none ++ cb ++ paramsBytes ps t
          = cb ++ paramsBytes ps t from by simp [sourceBytesOpt]]
      rw [headD_append_ne cb _ hcbne]
      cases cb with
      | nil => exact absurd rfl hcbne
      | cons x r =>
        simp only [List.headD_cons]
        exact (hcbclean x (by simp)).2.2
    | some src =>
      have h58 : (sourceBytesOpt (some src)).headD 0 = 58 := by
        cases src with
        | Server name => rfl
        | Client nick user host => cases user <;> rfl
      have hne : sourceBytesOpt (some src) ≠ [] := by
        cases src with
        | Server name => simp [sourceBytesOpt, sourceBytes]
        | Client nick user host => cases user <;> simp [sourceBytesOpt, sourceBytes]
      rw [List.append_assoc, headD_append_ne _ _ hne, h58]
      omega
  obtain ⟨tg, htags⟩ := parse_tags_keeps _ hWnc hWhead
  have hsp : Source.parse (sourceBytesOpt s ++ cb ++ paramsBytes ps t)
      = some (s, cb ++ paramsBytes ps t) := by
    cases s with
    | none =>
      rw [show sourceBytesOpt none ++ cb ++ paramsBytes ps t
          = cb ++ paramsBytes ps t from by simp [sourceBytesOpt]]
      apply source_parse_none_fwd
      right
      rw [headD_append_ne cb _ hcbne]
      exact hhead58 rfl
    | some src =>
      rw [List.append_assoc, show sourceBytesOpt (some src) = sourceBytes src from rfl]
      apply source_parse_fwd src (by simpa [validateSourceOpt] using hsv)
      right
      rw [headD_append_ne cb _ hcbne]
      cases cb with
      | nil => exact absurd rfl hcbne
      | cons x r =>
        have hm := hcbclean x (by simp)
        simp only [List.headD_cons]
        exact ⟨hm.1, hm.2.1, hm.2.2⟩
  have hpp : parseParams l = some (ps, t) := hgol l.length (le_refl _)
  obtain ⟨m2, hasm2, hproj⟩ := assemble_ok_rich hsv hcb2 hvalid ht hbound
  refine ⟨m2, ?_, hproj.1, hproj.2.2.1, hproj.2.2.2.1, hproj.2.2.2.2.1,
    hproj.2.2.2.2.2.1⟩
  have hsp2 : Source.parse (sourceBytesOpt s ++ cb ++ paramsBytes ps t)
      = some (s, cb ++ paramsBytes ps t) := hsp
  simp only [Message.parse, htags, hsp2, hcp, hpp, hasm2]

/-- C3 (witness): the amended C3 theorem at a concrete input — no source,
command `Numeric(1)`. -/
theorem C3_trailer_empty_amended_witness :
    Message.assemble none (.Numeric 1) [] true
      = .panicked "assertion failed: buf.len() == message_len" :=
  C3_trailer_empty_amended none (.Numeric 1) [48, 48, 49] rfl rfl (by decide)

/-- C4 (counterexample): parsing the line "foo" succeeds, but the resulting
message's command is the uppercased `Textual "FOO"`, not the original
lowercase token — so case folding IS applied during parse (via the internal
re-assembly), contrary to the claim. -/
theorem C4_cex_lowercase_uppercased :
    ∃ m, Message.parse [102, 111, 111] = .ok m ∧
      Message.get_command m = .Textual [70, 79, 79] ∧
      Command.Textual [70, 79, 79] ≠ Command.Textual [102, 111, 111] :=
  ⟨_, rfl, rfl, by decide⟩

/-- C4 (amended): the command-token splitter `Command::parse` itself preserves
case (a clean non-3-digit token is returned verbatim), but `Message::parse`
re-assembles the message, so every textual command of a successfully parsed
message is uppercase-folded. -/
theorem C4_case_folding_amended :
    (∀ tok : List Nat, tok ≠ [] →
      (∀ x ∈ tok, x ≠ 13 ∧ x ≠ 0 ∧ x ≠ 32) →
      isThreeDigits tok = false →
      Command.parse tok = some (.Textual tok, [])) ∧
    (∀ line m, Message.parse line = .ok m →
      ∀ b, Message.get_command m = .Textual b → b.map upcase = b) := by
  constructor
  · intro tok hne hcl h3
    have h := command_parse_textual_fwd tok [] [] hne hcl h3 (Or.inl rfl) rfl
    simpa using h
  · intro line m hp b hcmd
    obtain ⟨s, c, ps, t, hasm⟩ := parse_ok_inv hp
    obtain ⟨cb, _, hcb, _, _, _, _, _, hcmd2, _, _, _, _⟩ := assemble_ok_inv hasm
    rw [hcmd] at hcmd2
    cases c with
    | Numeric x => simp [cmdView] at hcmd2
    | Textual b0 =>
      simp only [cmdView] at hcmd2
      injection hcmd2 with hbcb
      obtain ⟨_, hcbv⟩ := bufferize_textual_inv hcb
      rw [hbcb, hcbv, map_upcase_idem]

/-- C4 (witness): the amended C4 theorem's first part at the concrete token
"foo". -/
theorem C4_case_folding_amended_witness :
    Command.parse [102, 111, 111] = some (.Textual [102, 111, 111], []) :=
  C4_case_folding_amended.1 [102, 111, 111] (by decide) (by decide) (by decide)

/-- C1 (counterexample): assembling the textual command ":a" with no source,
no parameters, and no trailer succeeds, but parsing the stripped raw bytes
":A" fails — the leading colon is mistaken for a source prefix, so the
round-trip claim does not hold for every successfully assembled message. -/
theorem C1_cex_colon_command :
    ∃ m, Message.assemble none (.Textual [58, 97]) [] false = .ok m ∧
      Message.parse ((Message.get_raw m).take ((Message.get_raw m).length - 2))
        = .fail :=
  ⟨_, rfl, rfl⟩

/-- C1 (amended): for every successfully assembled message whose command also
satisfies `commandGood` (textual commands: non-empty, not folding to three
ASCII digits, and not starting with a colon when there is no source), parsing
the raw bytes stripped of the trailing CR LF succeeds and yields a message
with the same source, command, trailer flag, and parameter sequence. -/
theorem C1_roundtrip_amended (s : Option Source) (c : Command)
    (ps : List (List Nat)) (t : Bool) (m : Message)
    (h : Message.assemble s c ps t = .ok m)
    (hg : commandGood s c) :
    ∃ m2, Message.parse ((Message.get_raw m).take ((Message.get_raw m).length - 2))
        = .ok m2 ∧
      Message.get_source m2 = Message.get_source m ∧
      Message.get_command m2 = Message.get_command m ∧
      Message.has_trailer m2 = Message.has_trailer m ∧
      Message.get_param_count m2 = Message.get_param_count m ∧
      (∀ n, Message.get_nth_param m2 n = Message.get_nth_param m n) := by
  obtain ⟨cb, hsv, hcb, hvalid, ht, htrail, hraw, hsrc, hcmd, hcount, hnth, _, hbound⟩ :=
    assemble_ok_inv h
  have hW : (Message.get_raw m).take ((Message.get_raw m).length - 2)
      = sourceBytesOpt s ++ cb ++ paramsBytes ps t := by
    rw [hraw]
    have hlen : (sourceBytesOpt s ++ cb ++ paramsBytes ps t ++ [13, 10]).length
        = (sourceBytesOpt s ++ cb ++ paramsBytes ps t).length + 2 := by
      simp only [List.length_append, List.length_cons, List.length_nil]
    rw [hlen, Nat.add_sub_cancel]
    exact List.take_left _ _
  rw [hW]
  obtain ⟨l, hskipl, hlenl, hgol⟩ := pp_round ps t hvalid ht
  have htailshape : paramsBytes ps t = [] ∨ ∃ ys, paramsBytes ps t = 32 :: ys := by
    cases ps with
    | nil => exact Or.inl rfl
    | cons q rest => exact Or.inr (paramsBytes_shape q rest t)
  cases c with
  | Numeric x =>
    obtain ⟨hx1, hx2, hcbv⟩ := bufferize_numeric_inv hcb
    subst hcbv
    have hdig : fmt03 x = [48 + x / 100, 48 + x / 10 % 10, 48 + x % 10] :=
      fmt03_digits x hx1 hx2
    have hcbne : fmt03 x ≠ [] := by rw [hdig]; simp
    have hcbclean : ∀ y ∈ fmt03 x, y ≠ 13 ∧ y ≠ 0 ∧ y ≠ 32 := by
      rw [hdig]
      intro y hy
      simp only [List.mem_cons, List.not_mem_nil, or_false] at hy
      rcases hy with h | h | h <;> (subst h; exact ⟨by omega, by omega, by omega⟩)
    have hhead58 : s = none → (fmt03 x).headD 0 ≠ 58 := by
      intro _
      rw [hdig]
      simp only [List.headD_cons]
      omega
    have hcp : Command.parse (fmt03 x ++ paramsBytes ps t) = some (.Numeric x, l) :=
      command_parse_numeric_fwd x hx1 hx2 _ l htailshape hskipl
    obtain ⟨m2, hparse, htr2, hsrc2, hcmd2, hcount2, hnth2⟩ :=
      roundtrip_core s ps t (fmt03 x) (.Numeric x) l hsv hvalid ht hskipl hgol
        hcbne hcbclean hhead58 hcp hcb hbound
    refine ⟨m2, hparse, ?_, ?_, ?_, ?_, ?_⟩
    · simp only [hsrc2, hsrc]
    · simp only [hcmd2, hcmd, cmdView]
    · simp only [htr2, htrail]
    · simp only [hcount2, hcount]
    · intro n
      simp only [hnth2 n, hnth n]
  | Textual b =>
    obtain ⟨hbclean, hcbv⟩ := bufferize_textual_inv hcb
    subst hcbv
    obtain ⟨hgne, hg3, hg58⟩ := hg
    have hcbne : b.map upcase ≠ [] := by
      cases b with
      | nil => exact absurd rfl hgne
      | cons y r => simp
    have hcbclean : ∀ y ∈ b.map upcase, y ≠ 13 ∧ y ≠ 0 ∧ y ≠ 32 := by
      intro y hy
      have hm := clean_cmd_mem (map_upcase_clean hbclean) y hy
      exact ⟨hm.2.1, hm.1, hm.2.2.2⟩
    have hcp : Command.parse (b.map upcase ++ paramsBytes ps t)
        = some (.Textual (b.map upcase), l) :=
      command_parse_textual_fwd (b.map upcase) _ l hcbne hcbclean hg3
        htailshape hskipl
    have hcb2 : Command.bufferize (.Textual (b.map upcase)) = .ok (b.map upcase) := by
      simp only [Command.bufferize]
      rw [if_neg (by simp [map_upcase_clean hbclean])]
      rw [map_upcase_idem]
    obtain ⟨m2, hparse, htr2, hsrc2, hcmd2, hcount2, hnth2⟩ :=
      roundtrip_core s ps t (b.map upcase) (.Textual (b.map upcase)) l hsv hvalid ht
        hskipl hgol hcbne hcbclean hg58 hcp hcb2 hbound
    refine ⟨m2, hparse, ?_, ?_, ?_, ?_, ?_⟩
    · simp only [hsrc2, hsrc]
    · simp only [hcmd2, hcmd, cmdView]
    · simp only [htr2, htrail]
    · simp only [hcount2, hcount]
    · intro n
      simp only [hnth2 n, hnth n]

/-- C1 (witness): the amended C1 theorem at a concrete input — the command
"ping" with one parameter "a", no source, no trailer. -/
theorem C1_roundtrip_amended_witness :
    ∃ m, Message.assemble none (.Textual [112, 105, 110, 103]) [[97]] false = .ok m ∧
      ∃ m2, Message.parse ((Message.get_raw m).take ((Message.get_raw m).length - 2))
          = .ok m2 ∧ Message.get_command m2 = Message.get_command m := by
  have hg : commandGood none (.Textual [112, 105, 110, 103]) :=
    ⟨by decide, by decide, fun _ => by decide⟩
  obtain ⟨m2, hp, _, hc, _, _, _⟩ :=
    C1_roundtrip_amended none (.Textual [112, 105, 110, 103]) [[97]] false _ rfl hg
  exact ⟨_, rfl, m2, hp, hc⟩

end Foxy
